import Mathlib

/-!
Verification model of the rrc-web repository (kc1awv/rrc-web).

Python strings are modelled as lists of Unicode code points (`List Nat`),
byte strings as lists of byte values (`List Nat`, each < 256), and Python
`dict`s as insertion-ordered association lists, matching CPython's
insertion-ordered dictionary semantics.  Wall-clock / monotonic times are
modelled as rationals.
-/

/-- Model of a Python value as produced by `cbor2` decoding and manipulated
by the repository: strings, ints, floats (carried as their raw IEEE-754
bit pattern, since no claim depends on float arithmetic), bools, byte
strings, lists, dicts (insertion-ordered association lists), `None`, and
`pother` standing for any other Python object (e.g. a set or datetime)
that is not one of the above kinds. -/
inductive PyVal where
  | pstr (s : List Nat)
  | pint (n : Int)
  | pfloat (bits : Nat)
  | pbool (b : Bool)
  | pbytes (b : List Nat)
  | plist (xs : List PyVal)
  | pdict (xs : List (PyVal × PyVal))
  | pnone
  | pother

/-- Code points of a Lean string literal, used to write Python string
constants from the source compactly. -/
def S (s : String) : List Nat :=
  s.data.map Char.toNat

/-- CPython's `str.strip()` whitespace set (Py_UNICODE_ISSPACE): ASCII
whitespace, the C1 controls 0x1C-0x1F, NEL, NBSP and the Unicode space
separators. -/
def isPySpace (c : Nat) : Bool :=
  c == 9 || c == 10 || c == 11 || c == 12 || c == 13 ||
  (28 ≤ c && c ≤ 31) || c == 32 || c == 133 || c == 160 || c == 5760 ||
  (8192 ≤ c && c ≤ 8202) || c == 8232 || c == 8233 ||
  c == 8239 || c == 8287 || c == 12288

/-- Python `str.strip()`: remove leading and trailing whitespace. -/
def pyStrip (s : List Nat) : List Nat :=
  ((s.dropWhile isPySpace).reverse.dropWhile isPySpace).reverse

/-- Python `str.lower()`, restricted to the ASCII case mapping (the room
names the claims quantify over are ASCII; no claim depends on non-ASCII
case folding). -/
def pyLowerChar (c : Nat) : Nat :=
  if 65 ≤ c ∧ c ≤ 90 then c + 32 else c

/-- Python `str.lower()` applied pointwise. -/
def pyLower (s : List Nat) : List Nat :=
  s.map pyLowerChar

/-- src/rrc_web/utils.py `normalize_room_name` (string case): strip and
lowercase; `None` if the result is empty. -/
def normalize_room_name (room : List Nat) : Option (List Nat) :=
  let normalized := pyLower (pyStrip room)
  if normalized = [] then none else some normalized

/-- The per-character rejection test of `sanitize_text_input`:
control characters other than tab, LF, CR, plus NUL, U+FFFE and U+FFFF. -/
def badTextChar (c : Nat) : Bool :=
  (c < 32 && !(c == 9 || c == 10 || c == 13)) || c == 0 || c == 65534 || c == 65535

/-- src/rrc_web/utils.py `sanitize_text_input` (string case): strip, reject
empty, reject length over `maxLength` (the Python default is 1024), reject
any disallowed character; otherwise return the stripped text. -/
def sanitize_text_input (text : List Nat) (maxLength : Nat) : Option (List Nat) :=
  let sanitized := pyStrip text
  if sanitized = [] then none
  else if maxLength < sanitized.length then none
  else if sanitized.any badTextChar then none
  else some sanitized

/-- src/rrc_web/utils.py `sanitize_display_name` (string case): strip,
reject empty, truncate to `maxLength`, drop control characters / DEL /
U+FFFE / U+FFFF, reject if nothing remains. -/
def sanitize_display_name (name : List Nat) (maxLength : Nat) : Option (List Nat) :=
  let sanitized := pyStrip name
  if sanitized = [] then none
  else
    let truncated := if maxLength < sanitized.length then sanitized.take maxLength else sanitized
    let cleaned := truncated.filter
      (fun c => !(c < 32 || c == 127 || c == 65534 || c == 65535))
    if cleaned = [] then none else some cleaned

/-! ## Envelope constants and validation (src/rrc_web/constants.py, envelope.py) -/

def K_V : Int := 0
def K_T : Int := 1
def K_ID : Int := 2
def K_TS : Int := 3
def K_SRC : Int := 4
def K_ROOM : Int := 5
def K_BODY : Int := 6
def K_NICK : Int := 7
def RRC_VERSION : Int := 1

def T_MSG : Int := 20
def T_RESOURCE_ENVELOPE : Int := 50

def B_RES_ID : Int := 0
def B_RES_KIND : Int := 1
def B_RES_SIZE : Int := 2
def B_RES_SHA256 : Int := 3
def B_RES_ENCODING : Int := 4

/-- Python `isinstance(v, int)` together with the integer value used in
comparisons: both `int` and `bool` count (`bool` is a subclass of `int`). -/
def pyAsInt : PyVal → Option Int
  | .pint n => some n
  | .pbool b => some (if b then 1 else 0)
  | _ => none

/-- Python equality of a dict key against an int constant (`bool` compares
equal to its int value in Python). -/
def pyEqInt (v : PyVal) (k : Int) : Bool :=
  pyAsInt v == some k

/-- Lookup of an int key in a Python dict modelled as an association list. -/
def dictGet (xs : List (PyVal × PyVal)) (k : Int) : Option PyVal :=
  (xs.find? (fun p => pyEqInt p.1 k)).map (·.2)

/-- Python `k in d` for an int key. -/
def dictHasKey (xs : List (PyVal × PyVal)) (k : Int) : Bool :=
  (xs.find? (fun p => pyEqInt p.1 k)).isSome

/-- The body type test of `validate_envelope`:
`isinstance(body, (str, int, float, bool, dict, list, bytes, bytearray))`,
or `body is None`. -/
def bodyKindOk : PyVal → Bool
  | .pstr _ => true
  | .pint _ => true
  | .pfloat _ => true
  | .pbool _ => true
  | .pdict _ => true
  | .plist _ => true
  | .pbytes _ => true
  | .pnone => true
  | .pother => false

/-- src/rrc_web/envelope.py `validate_envelope`, as a boolean: `true` iff
the function returns without raising.  Mirrors the source checks in order:
envelope is a dict, keys are unsigned ints, required keys present,
version = 1, type and timestamp unsigned ints, id exactly 8 bytes, source
16 or 32 bytes, room a string of 1..64 chars, nick a string of 1..32
chars, body of a supported kind. -/
def validate_envelope : PyVal → Bool
  | .pdict xs =>
    (xs.all (fun p => match pyAsInt p.1 with
      | some k => decide (0 ≤ k)
      | none => false)) &&
    ([K_V, K_T, K_ID, K_TS, K_SRC].all (fun k => dictHasKey xs k)) &&
    (match dictGet xs K_V with
      | some v => (pyAsInt v).isSome && pyAsInt v == some RRC_VERSION
      | none => false) &&
    (match dictGet xs K_T with
      | some t => match pyAsInt t with
        | some n => decide (0 ≤ n)
        | none => false
      | none => false) &&
    (match dictGet xs K_ID with
      | some (.pbytes b) => b.length == 8
      | _ => false) &&
    (match dictGet xs K_TS with
      | some ts => match pyAsInt ts with
        | some n => decide (0 ≤ n)
        | none => false
      | none => false) &&
    (match dictGet xs K_SRC with
      | some (.pbytes b) => b.length == 16 || b.length == 32
      | _ => false) &&
    (if dictHasKey xs K_ROOM then
      match dictGet xs K_ROOM with
      | some (.pstr r) => decide (1 ≤ r.length) && decide (r.length ≤ 64)
      | _ => false
     else true) &&
    (if dictHasKey xs K_NICK then
      match dictGet xs K_NICK with
      | some (.pstr r) => decide (1 ≤ r.length) && decide (r.length ≤ 32)
      | _ => false
     else true) &&
    (if dictHasKey xs K_BODY then
      match dictGet xs K_BODY with
      | some b => bodyKindOk b
      | none => false
     else true)
  | _ => false

/-! ## Client model (src/rrc_web/client.py) -/

/-- src/rrc_web/client.py dataclass `_ResourceExpectation`. -/
structure ResourceExpectation where
  id : List Nat
  kind : List Nat
  size : Nat
  sha256 : Option (List Nat)
  encoding : Option (List Nat)
  created_at : ℚ
  expires_at : ℚ
  room : Option (List Nat)
deriving DecidableEq

/-- src/rrc_web/client.py dataclass `ClientConfig` (the fields the claims
touch). -/
structure ClientConfig where
  max_resource_bytes : Nat
  resource_expectation_ttl_s : ℚ
  max_pending_resource_expectations : Nat
  max_active_resources : Nat
deriving DecidableEq

/-- The `ClientConfig` defaults from the source: 262144 bytes, 30 s TTL,
8 pending expectations, 16 active resources. -/
def defaultClientConfig : ClientConfig :=
  { max_resource_bytes := 262144
    resource_expectation_ttl_s := 30
    max_pending_resource_expectations := 8
    max_active_resources := 16 }

/-- The mutable state of `Client` touched by the claims: the link, the
joined rooms, the pending-expectation table (`dict[bytes, _ResourceExpectation]`,
modelled as an insertion-ordered association list), the active-resource
set (resources modelled by numeric handles), and the
resource-to-expectation map. -/
structure ClientState where
  link : Option Nat
  rooms : List (List Nat)
  resource_expectations : List (List Nat × ResourceExpectation)
  active_resources : List Nat
  resource_to_expectation : List (Nat × ResourceExpectation)
deriving DecidableEq

/-- src/rrc_web/client.py `Client.close`: under the lock, clear the link,
the rooms, the expectation table, the active set and the
resource-to-expectation map (the snapshot is then cancelled and the link
torn down outside the lock, which does not touch this state). -/
def clientClose (st : ClientState) : ClientState :=
  { st with
    link := none
    rooms := []
    resource_expectations := []
    active_resources := []
    resource_to_expectation := [] }

/-- src/rrc_web/client.py `_cleanup_expired_expectations`: delete every
entry with `now >= expires_at`. -/
def cleanupExpiredExpectations (now : ℚ)
    (tbl : List (List Nat × ResourceExpectation)) :
    List (List Nat × ResourceExpectation) :=
  tbl.filter (fun p => decide (now < p.2.expires_at))

/-- The search-and-pop loop of `_find_resource_expectation`: return the
first entry (in dict insertion order) whose size matches, removing it
from the table. -/
def extractFirstSize (size : Nat) :
    List (List Nat × ResourceExpectation) →
    Option ResourceExpectation × List (List Nat × ResourceExpectation)
  | [] => (none, [])
  | p :: t =>
    if p.2.size == size then (some p.2, t)
    else ((extractFirstSize size t).1, p :: (extractFirstSize size t).2)

/-- src/rrc_web/client.py `_find_resource_expectation`: purge expired
entries, then pop the first expectation whose `size` equals the requested
size. -/
def find_resource_expectation (now : ℚ) (size : Nat)
    (tbl : List (List Nat × ResourceExpectation)) :
    Option ResourceExpectation × List (List Nat × ResourceExpectation) :=
  extractFirstSize size (cleanupExpiredExpectations now tbl)

/-- Python `set.add` on the active-resource set. -/
def setAdd (r : Nat) (s : List Nat) : List Nat :=
  if s.contains r then s else r :: s

/-- Python dict assignment `d[k] = v` on an association list: replace in
place if the key is present (CPython keeps the original insertion
position), else append. -/
def assocSetRes (m : List (Nat × ResourceExpectation)) (k : Nat)
    (v : ResourceExpectation) : List (Nat × ResourceExpectation) :=
  match m with
  | [] => [(k, v)]
  | p :: t => if p.1 == k then (k, v) :: t else p :: assocSetRes t k v

/-- src/rrc_web/client.py `_resource_advertised`: reject when the size
exceeds `max_resource_bytes`; reject when the active set is full; find
(and consume) a pending expectation matching the size; on success add the
resource to the active set and record the resource-to-expectation
back-pointer.  Returns the accept decision and the new state. -/
def resource_advertised (cfg : ClientConfig) (now : ℚ) (res : Nat)
    (size : Nat) (st : ClientState) : Bool × ClientState :=
  if cfg.max_resource_bytes < size then (false, st)
  else if cfg.max_active_resources ≤ st.active_resources.length then (false, st)
  else
    match find_resource_expectation now size st.resource_expectations with
    | (none, tbl) => (false, { st with resource_expectations := tbl })
    | (some exp, tbl) =>
      (true,
       { st with
         resource_expectations := tbl
         active_resources := setAdd res st.active_resources
         resource_to_expectation := assocSetRes st.resource_to_expectation res exp })

/-- Python dict assignment `d[rid] = exp` on the expectation table
(replace in place when present, else append). -/
def assocSetExp (m : List (List Nat × ResourceExpectation)) (k : List Nat)
    (v : ResourceExpectation) : List (List Nat × ResourceExpectation) :=
  match m with
  | [] => [(k, v)]
  | p :: t => if p.1 == k then (k, v) :: t else p :: assocSetExp t k v

/-- Lookup in the expectation table (dict indexing by resource id). -/
def assocGetExp (m : List (List Nat × ResourceExpectation)) (k : List Nat) :
    Option ResourceExpectation :=
  (m.find? (fun p => p.1 == k)).map (·.2)

/-- The `min(keys, key=created_at)` eviction of `_on_packet`: remove the
first entry (in dict insertion order) attaining the minimal `created_at`.
`removeMinCreated` removes it; `minCreatedKey` names its key. -/
def minCreatedKey (p0 : List Nat × ResourceExpectation) :
    List (List Nat × ResourceExpectation) → List Nat
  | [] => p0.1
  | p :: t => if p.2.created_at < p0.2.created_at then minCreatedKey p t
              else minCreatedKey p0 t

/-- Delete the entry whose key is the first minimal-`created_at` key
(Python's `min` over dict keys returns the first minimum in insertion
order; `del` then removes that single entry). -/
def removeMinCreated (tbl : List (List Nat × ResourceExpectation)) :
    List (List Nat × ResourceExpectation) :=
  match tbl with
  | [] => []
  | p0 :: t => (p0 :: t).filter (fun p => !(p.1 == minCreatedKey p0 t))

/-- The `_ResourceExpectation(...)` constructed by `_on_packet` for a
validated RESOURCE_ENVELOPE: `created_at = now`,
`expires_at = now + resource_expectation_ttl_s`. -/
def newResourceExpectation (cfg : ClientConfig) (now : ℚ)
    (rid kind : List Nat) (size : Nat)
    (sha256 encoding room : Option (List Nat)) : ResourceExpectation :=
  { id := rid
    kind := kind
    size := size
    sha256 := sha256
    encoding := encoding
    created_at := now
    expires_at := now + cfg.resource_expectation_ttl_s
    room := room }

/-- The table-update step of the `T_RESOURCE_ENVELOPE` branch of
`_on_packet` (client.py lines 796-816): when the table already holds
`max_pending_resource_expectations` entries, evict the entry with the
smallest `created_at`; then store the new expectation under its resource
id with `created_at = now` and `expires_at = now + TTL`. -/
def recordResourceExpectation (cfg : ClientConfig) (now : ℚ)
    (rid kind : List Nat) (size : Nat)
    (sha256 encoding room : Option (List Nat))
    (tbl : List (List Nat × ResourceExpectation)) :
    List (List Nat × ResourceExpectation) :=
  let tbl1 :=
    if cfg.max_pending_resource_expectations ≤ tbl.length then
      removeMinCreated tbl
    else tbl
  assocSetExp tbl1 rid
    (newResourceExpectation cfg now rid kind size sha256 encoding room)

/-- The field checks of the `T_RESOURCE_ENVELOPE` branch of `_on_packet`
(client.py lines 772-791): body must carry a bytes id, a string kind, a
positive int size not exceeding `max_resource_bytes`, an optional bytes
sha256 and an optional string encoding.  Returns the extracted fields. -/
def parseResourceEnvelopeBody (cfg : ClientConfig)
    (body : List (PyVal × PyVal)) :
    Option (List Nat × List Nat × Nat × Option (List Nat) × Option (List Nat)) :=
  match dictGet body B_RES_ID with
  | some (.pbytes rid) =>
    match dictGet body B_RES_KIND with
    | some (.pstr kind) =>
      match dictGet body B_RES_SIZE with
      | some (.pint n) =>
        if n ≤ 0 then none
        else if cfg.max_resource_bytes < n.toNat then none
        else
          let sha := dictGet body B_RES_SHA256
          let enc := dictGet body B_RES_ENCODING
          match sha, enc with
          | some (.pbytes s), some (.pstr e) => some (rid, kind, n.toNat, some s, some e)
          | some (.pbytes s), none => some (rid, kind, n.toNat, some s, none)
          | none, some (.pstr e) => some (rid, kind, n.toNat, none, some e)
          | none, none => some (rid, kind, n.toNat, none, none)
          | _, _ => none
      | _ => none
    | _ => none
  | _ => none

/-- The full `T_RESOURCE_ENVELOPE` branch of `_on_packet`: if the body is
a dict whose fields pass the checks, update the expectation table;
otherwise leave the state unchanged. -/
def on_resource_envelope (cfg : ClientConfig) (now : ℚ)
    (env : List (PyVal × PyVal)) (st : ClientState) : ClientState :=
  match dictGet env K_BODY with
  | some (.pdict body) =>
    match parseResourceEnvelopeBody cfg body with
    | some (rid, kind, size, sha, enc) =>
      let room := match dictGet env K_ROOM with
        | some (.pstr r) => some r
        | _ => none
      { st with resource_expectations :=
          (recordResourceExpectation cfg now rid kind size sha enc room
            st.resource_expectations) }
    | none => st
  | _ => st

/-! ## Backend model (src/rrc_web/backend.py) -/

/-- The rate-limit table `room_operation_times`: operation key to the list
of admitted operation times. -/
def RateTable := List (List Nat × List ℚ)

/-- Lookup in the rate table. -/
def rateLookup (tbl : RateTable) (key : List Nat) : Option (List ℚ) :=
  (List.find? (fun p => p.1 == key) tbl).map (·.2)

/-- Store a key's time list in the rate table (dict assignment: replace in
place when present, else append). -/
def rateSet (tbl : RateTable) (key : List Nat) (v : List ℚ) : RateTable :=
  match tbl with
  | [] => [(key, v)]
  | p :: t => if p.1 == key then (key, v) :: t else p :: rateSet t key v

/-- src/rrc_web/backend.py `_check_room_operation_rate_limit`: drop
entries older than the window, refuse when `limit` many remain, else
record `now` and allow.  The backend initializes `room_op_rate_limit = 10`
and `room_op_rate_window = 5.0`. -/
def check_room_operation_rate_limit (tbl : RateTable) (key : List Nat)
    (now : ℚ) (limit : Nat) (window : ℚ) : Bool × RateTable :=
  let times := (rateLookup tbl key).getD []
  let filtered := times.filter (fun t => decide (now - t < window))
  if limit ≤ filtered.length then (false, rateSet tbl key filtered)
  else (true, rateSet tbl key (filtered ++ [now]))

/-- Result of the `join_room` command handler: either an error response to
the UI, or a successful dispatch carrying the normalized room passed to
`Client.join`. -/
inductive JoinRoomResult where
  | invalidRoom
  | notConnected
  | rateLimited
  | joinRequested (normalizedRoom : List Nat)
deriving DecidableEq

/-- src/rrc_web/backend.py `_handle_join_room`: reject non-string or
over-64-char rooms; reject when no client is connected; normalize the
room; rate-limit on key `join:<normalized>` (limit 10, window 5 s);
otherwise dispatch `Client.join(normalized)`.  `Client.join` is invoked
exactly on the `joinRequested` result. -/
def handle_join_room (connected : Bool) (tbl : RateTable) (now : ℚ)
    (roomV : PyVal) : JoinRoomResult × RateTable :=
  match roomV with
  | .pstr room =>
    if 64 < room.length then (.invalidRoom, tbl)
    else if !connected then (.notConnected, tbl)
    else
      match normalize_room_name room with
      | none => (.invalidRoom, tbl)
      | some normalized =>
        let key := S "join:" ++ normalized
        let checked := check_room_operation_rate_limit tbl key now 10 5
        if checked.1 then (.joinRequested normalized, checked.2)
        else (.rateLimited, checked.2)
  | _ => (.invalidRoom, tbl)

/-- Result of the `send_message` command handler: a validation error, a
routing to the slash-command handler, or a dispatch of
`Client.msg(normalizedRoom, sanitizedText)`. -/
inductive SendMessageResult where
  | invalidRoom
  | invalidText
  | notConnected
  | toCommandHandler (normalizedRoom sanitizedText : List Nat)
  | toClientMsg (normalizedRoom sanitizedText : List Nat)
deriving DecidableEq

/-- src/rrc_web/backend.py `_handle_send_message`: reject non-string or
over-64-char rooms and non-string or over-10000-char texts; reject when
not connected; normalize the room; sanitize the text with
`sanitize_text_input` (whose `max_length` default is 1024); texts starting
with a slash go to the command handler; otherwise forward to
`Client.msg`. -/
def handle_send_message (connected : Bool) (roomV textV : PyVal) :
    SendMessageResult :=
  match roomV with
  | .pstr room =>
    if 64 < room.length then .invalidRoom
    else
      match textV with
      | .pstr text =>
        if 10000 < text.length then .invalidText
        else if !connected then .notConnected
        else
          match normalize_room_name room with
          | none => .invalidRoom
          | some normalizedRoom =>
            match sanitize_text_input text 1024 with
            | none => .invalidText
            | some sanitizedText =>
              if sanitizedText.head? == some 47 then
                .toCommandHandler normalizedRoom sanitizedText
              else .toClientMsg normalizedRoom sanitizedText
      | _ => .invalidText
  | _ => .invalidRoom

/-! ## Announce handler model (src/rrc_web/backend.py `HubAnnounceHandler`) -/

/-- Python equality of a dict key against a string constant. -/
def pyEqStr (v : PyVal) (s : List Nat) : Bool :=
  match v with
  | .pstr t => t == s
  | _ => false

/-- Lookup of a string key in a decoded announce dict
(`decoded.get("...")`). -/
def dictGetStr (xs : List (PyVal × PyVal)) (k : List Nat) : Option PyVal :=
  (xs.find? (fun p => pyEqStr p.1 k)).map (·.2)

/-- Python `"hub" in decoded`. -/
def dictHasStrKey (xs : List (PyVal × PyVal)) (k : List Nat) : Bool :=
  (xs.find? (fun p => pyEqStr p.1 k)).isSome

/-- The branch guard `decoded.get("proto") == "rrc" and "hub" in decoded`
of `received_announce`. -/
def announceIsRrcHub (xs : List (PyVal × PyVal)) : Bool :=
  (match dictGetStr xs (S "proto") with
   | some (.pstr t) => t == S "rrc"
   | _ => false) &&
  dictHasStrKey xs (S "hub")

/-- Python's `x if isinstance(x, str) else <alt>` on a dict lookup
result. -/
def strOrElse (v : Option PyVal) (alt : Option (List Nat)) : Option (List Nat) :=
  match v with
  | some (.pstr s) => some s
  | _ => alt

/-- The hub-name selection for a decoded announce dict
(backend.py lines 93-109): when `proto == "rrc"` and a `"hub"` key is
present, take `decoded["hub"]` if it is a string and `None` otherwise (the
fallback chain is not consulted); otherwise take the first of
`decoded.get("name")`, `decoded.get("n")`, `decoded.get("hub")` that is a
string. -/
def dictHubName (xs : List (PyVal × PyVal)) : Option (List Nat) :=
  if announceIsRrcHub xs then
    strOrElse (dictGetStr xs (S "hub")) none
  else
    strOrElse (dictGetStr xs (S "name"))
      (strOrElse (dictGetStr xs (S "n"))
        (strOrElse (dictGetStr xs (S "hub")) none))

/-- The synthesized fallback name `"Hub " + hash_hex[:8]`
(backend.py lines 137-138). -/
def synthesizedHubName (hashHex : List Nat) : List Nat :=
  S "Hub " ++ hashHex.take 8

/-- The final hub name recorded for an announce (backend.py lines
137-146): fall back to the synthesized name when no name was found or the
found name is falsy (empty), then pass through
`sanitize_display_name(·, 200)`, falling back to the synthesized name
again when sanitization returns nothing. -/
def announceFinalName (nameOpt : Option (List Nat)) (hashHex : List Nat) :
    List Nat :=
  let hubName := match nameOpt with
    | some s => if s = [] then synthesizedHubName hashHex else s
    | none => synthesizedHubName hashHex
  match sanitize_display_name hubName 200 with
  | some s => s
  | none => synthesizedHubName hashHex

/-- The name recorded in the discovery catalog for an announce whose
app_data decoded to the dict `xs` and passed the structural guards
(backend.py lines 79-109 and 137-146). -/
def announceDictHubName (xs : List (PyVal × PyVal)) (hashHex : List Nat) :
    List Nat :=
  announceFinalName (dictHubName xs) hashHex

/-! ## Discovery catalog model (src/rrc_web/backend.py) -/

/-- A discovered-hub record: the fields of the catalog entry the claims
touch (`name`, `last_seen`). -/
structure HubRec where
  name : List Nat
  last_seen : ℚ
deriving DecidableEq

/-- backend.py `STALE_HUB_THRESHOLD_SECONDS`. -/
def STALE_HUB_THRESHOLD_SECONDS : ℚ := 3600

/-- src/rrc_web/backend.py `cleanup_stale_hubs`: collect the keys of
entries with `now - last_seen > 3600`, delete them from the catalog, and
call `save_discovered_hubs` (rewriting the cache file) iff the stale list
was non-empty.  Returns the new catalog and whether the file was
rewritten. -/
def cleanup_stale_hubs (now : ℚ) (hubs : List (List Nat × HubRec)) :
    List (List Nat × HubRec) × Bool :=
  let stale_hubs := (hubs.filter
    (fun p => decide (STALE_HUB_THRESHOLD_SECONDS < now - p.2.last_seen))).map Prod.fst
  let remaining := hubs.filter (fun p => !(stale_hubs.contains p.1))
  (remaining, !stale_hubs.isEmpty)

/-- src/rrc_web/backend.py `_handle_get_discovered_hubs`: run the stale-hub
GC, then return the catalog values.  Returns the reply payload, the new
catalog and whether the cache file was rewritten. -/
def handle_get_discovered_hubs (now : ℚ) (hubs : List (List Nat × HubRec)) :
    List HubRec × List (List Nat × HubRec) × Bool :=
  let cleaned := cleanup_stale_hubs now hubs
  (cleaned.1.map Prod.snd, cleaned.1, cleaned.2)

/-! ## Codec model (src/rrc_web/codec.py over the cbor2 wire format)

`encode` is `cbor2.dumps` and `decode` is `cbor2.loads` behind a hard
524288-byte ceiling.  The cbor2 library is modelled at the byte level
(RFC 8949 definite-length items, which is all `cbor2.dumps` emits with
its default options): unsigned/negative integers with shortest-form
arguments, byte strings, UTF-8 text strings, arrays, maps in insertion
order, `false`/`true`/`null`, and doubles (major 7, additional
information 27). -/

/-- Big-endian byte expansion of `n` into `k` bytes. -/
def bytesBE : Nat → Nat → List Nat
  | 0, _ => []
  | k + 1, n => bytesBE k (n / 256) ++ [n % 256]

/-- Big-endian value of a byte list, with accumulator. -/
def beVal (acc : Nat) : List Nat → Nat
  | [] => acc
  | b :: t => beVal (acc * 256 + b) t

/-- Read `k` big-endian bytes from the input. -/
def readBE (k : Nat) (l : List Nat) : Option (Nat × List Nat) :=
  if k ≤ l.length then some (beVal 0 (l.take k), l.drop k) else none

/-- Read `n` raw bytes from the input. -/
def readN (n : Nat) (l : List Nat) : Option (List Nat × List Nat) :=
  if n ≤ l.length then some (l.take n, l.drop n) else none

/-- CBOR head for major type `m` and argument `n`, shortest form (what
cbor2 emits). -/
def encodeHead (m n : Nat) : List Nat :=
  if n < 24 then [m * 32 + n]
  else if n < 256 then [m * 32 + 24, n]
  else if n < 65536 then (m * 32 + 25) :: bytesBE 2 n
  else if n < 4294967296 then (m * 32 + 26) :: bytesBE 4 n
  else (m * 32 + 27) :: bytesBE 8 n

/-- Read a CBOR argument given the additional-information bits. -/
def readArg (ai : Nat) (l : List Nat) : Option (Nat × List Nat) :=
  if ai < 24 then some (ai, l)
  else if ai == 24 then readBE 1 l
  else if ai == 25 then readBE 2 l
  else if ai == 26 then readBE 4 l
  else if ai == 27 then readBE 8 l
  else none

/-- UTF-8 bytes of one code point (1 to 4 bytes). -/
def utf8EncodeChar (c : Nat) : List Nat :=
  if c < 128 then [c]
  else if c < 2048 then [192 + c / 64, 128 + c % 64]
  else if c < 65536 then [224 + c / 4096, 128 + c / 64 % 64, 128 + c % 64]
  else [240 + c / 262144, 128 + c / 4096 % 64, 128 + c / 64 % 64, 128 + c % 64]

/-- UTF-8 bytes of a code-point list. -/
def utf8EncodeList (s : List Nat) : List Nat :=
  s.foldr (fun c acc => utf8EncodeChar c ++ acc) []

/-- A UTF-8 continuation byte. -/
def utf8Cont (b : Nat) : Bool :=
  128 ≤ b && b < 192

mutual

/-- Strict UTF-8 decoding of a byte list back to code points (rejecting
overlong forms, surrogates and out-of-range values, as Python's strict
UTF-8 codec does).  The continuation bytes of a multi-byte sequence are
consumed by the `utf8DecodeTwo`/`Three`/`Four` helpers. -/
def utf8DecodeList : List Nat → Option (List Nat)
  | [] => some []
  | b :: rest =>
    if b < 128 then (utf8DecodeList rest).map (b :: ·)
    else if b < 192 then none
    else if b < 224 then utf8DecodeTwo b rest
    else if b < 240 then utf8DecodeThree b rest
    else if b < 248 then utf8DecodeFour b rest
    else none

/-- Continuation of a two-byte UTF-8 sequence with lead byte `b`. -/
def utf8DecodeTwo (b : Nat) : List Nat → Option (List Nat)
  | b1 :: r2 =>
    if utf8Cont b1 then
      let c := (b - 192) * 64 + (b1 - 128)
      if 128 ≤ c then (utf8DecodeList r2).map (c :: ·) else none
    else none
  | [] => none

/-- Continuation of a three-byte UTF-8 sequence with lead byte `b`. -/
def utf8DecodeThree (b : Nat) : List Nat → Option (List Nat)
  | b1 :: rest1 => utf8DecodeThreeTail b b1 rest1
  | [] => none

/-- Final byte of a three-byte UTF-8 sequence. -/
def utf8DecodeThreeTail (b b1 : Nat) : List Nat → Option (List Nat)
  | b2 :: r3 =>
    if utf8Cont b1 && utf8Cont b2 then
      let c := (b - 224) * 4096 + (b1 - 128) * 64 + (b2 - 128)
      if 2048 ≤ c && !(55296 ≤ c && c ≤ 57343) then
        (utf8DecodeList r3).map (c :: ·)
      else none
    else none
  | [] => none

/-- Continuation of a four-byte UTF-8 sequence with lead byte `b`. -/
def utf8DecodeFour (b : Nat) : List Nat → Option (List Nat)
  | b1 :: rest1 => utf8DecodeFourA b b1 rest1
  | [] => none

/-- Third byte of a four-byte UTF-8 sequence. -/
def utf8DecodeFourA (b b1 : Nat) : List Nat → Option (List Nat)
  | b2 :: rest2 => utf8DecodeFourB b b1 b2 rest2
  | [] => none

/-- Final byte of a four-byte UTF-8 sequence. -/
def utf8DecodeFourB (b b1 b2 : Nat) : List Nat → Option (List Nat)
  | b3 :: r4 =>
    if utf8Cont b1 && utf8Cont b2 && utf8Cont b3 then
      let c := (b - 240) * 262144 + (b1 - 128) * 4096 + (b2 - 128) * 64 +
        (b3 - 128)
      if 65536 ≤ c && c < 1114112 then
        (utf8DecodeList r4).map (c :: ·)
      else none
    else none
  | [] => none

end

mutual

/-- CBOR encoding of a modelled Python value (what `cbor2.dumps` emits
with default options).  `pother` values cannot arise from envelopes the
repository builds and are mapped to the one-byte `undefined` item. -/
def encVal : PyVal → List Nat
  | .pint n => if 0 ≤ n then encodeHead 0 n.toNat else encodeHead 1 (-1 - n).toNat
  | .pbytes b => encodeHead 2 b.length ++ b
  | .pstr s => encodeHead 3 (utf8EncodeList s).length ++ utf8EncodeList s
  | .plist xs => encodeHead 4 xs.length ++ encList xs
  | .pdict xs => encodeHead 5 xs.length ++ encPairs xs
  | .pbool b => if b then [245] else [244]
  | .pnone => [246]
  | .pother => [247]
  | .pfloat bits => 251 :: bytesBE 8 bits

/-- CBOR encoding of consecutive array items. -/
def encList : List PyVal → List Nat
  | [] => []
  | x :: xs => encVal x ++ encList xs

/-- CBOR encoding of consecutive map pairs (insertion order, as cbor2
serializes dicts with default options). -/
def encPairs : List (PyVal × PyVal) → List Nat
  | [] => []
  | (k, v) :: xs => encVal k ++ encVal v ++ encPairs xs

end

/-- Parse `count` consecutive CBOR items with the item parser `pv`. -/
def parseMany (pv : List Nat → Option (PyVal × List Nat)) :
    Nat → List Nat → Option (List PyVal × List Nat)
  | 0, l => some ([], l)
  | n + 1, l =>
    (pv l).bind fun vr =>
      (parseMany pv n vr.2).map fun vsr => (vr.1 :: vsr.1, vsr.2)

/-- Parse `count` consecutive CBOR key-value pairs with the item parser
`pv`. -/
def parseManyPairs (pv : List Nat → Option (PyVal × List Nat)) :
    Nat → List Nat → Option (List (PyVal × PyVal) × List Nat)
  | 0, l => some ([], l)
  | n + 1, l =>
    (pv l).bind fun kr =>
      (pv kr.2).bind fun vr =>
        (parseManyPairs pv n vr.2).map fun psr => ((kr.1, vr.1) :: psr.1, psr.2)

/-- One CBOR item parser (the definite-length fragment of `cbor2.loads`),
with a fuel bound on nesting depth.  Returns the decoded value and the
remaining input. -/
def parseVal : Nat → List Nat → Option (PyVal × List Nat)
  | 0, _ => none
  | _ + 1, [] => none
  | fuel + 1, b :: l =>
    let maj := b / 32
    let ai := b % 32
    if maj == 7 then
      if ai == 20 then some (.pbool false, l)
      else if ai == 21 then some (.pbool true, l)
      else if ai == 22 then some (.pnone, l)
      else if ai == 23 then some (.pother, l)
      else if ai == 27 then (readBE 8 l).map fun br => (.pfloat br.1, br.2)
      else none
    else
      (readArg ai l).bind fun nr =>
        if maj == 0 then some (.pint (Int.ofNat nr.1), nr.2)
        else if maj == 1 then some (.pint (-1 - Int.ofNat nr.1), nr.2)
        else if maj == 2 then
          (readN nr.1 nr.2).map fun br => (.pbytes br.1, br.2)
        else if maj == 3 then
          (readN nr.1 nr.2).bind fun br =>
            (utf8DecodeList br.1).map fun s => (.pstr s, br.2)
        else if maj == 4 then
          (parseMany (fun l2 => parseVal fuel l2) nr.1 nr.2).map fun vr =>
            (.plist vr.1, vr.2)
        else
          (parseManyPairs (fun l2 => parseVal fuel l2) nr.1 nr.2).map fun pr =>
            (.pdict pr.1, pr.2)

mutual

/-- Nesting depth of a modelled Python value (1 for leaves). -/
def pdepth : PyVal → Nat
  | .plist xs => 1 + pdepthList xs
  | .pdict xs => 1 + pdepthPairs xs
  | _ => 1

/-- Maximal nesting depth over a list of values. -/
def pdepthList : List PyVal → Nat
  | [] => 0
  | x :: xs => max (pdepth x) (pdepthList xs)

/-- Maximal nesting depth over a list of key-value pairs. -/
def pdepthPairs : List (PyVal × PyVal) → Nat
  | [] => 0
  | p :: xs => max (max (pdepth p.1) (pdepth p.2)) (pdepthPairs xs)

end

mutual

/-- Python structural equality on modelled values, used only in the
well-formedness test for dict-key distinctness. -/
def pyBeq : PyVal → PyVal → Bool
  | .pstr a, .pstr b => a == b
  | .pint a, .pint b => a == b
  | .pfloat a, .pfloat b => a == b
  | .pbool a, .pbool b => a == b
  | .pbytes a, .pbytes b => a == b
  | .plist a, .plist b => pyBeqList a b
  | .pdict a, .pdict b => pyBeqPairs a b
  | .pnone, .pnone => true
  | .pother, .pother => true
  | _, _ => false

/-- Elementwise `pyBeq` on lists. -/
def pyBeqList : List PyVal → List PyVal → Bool
  | [], [] => true
  | a :: as1, b :: bs1 => pyBeq a b && pyBeqList as1 bs1
  | _, _ => false

/-- Pairwise `pyBeq` on key-value lists. -/
def pyBeqPairs : List (PyVal × PyVal) → List (PyVal × PyVal) → Bool
  | [], [] => true
  | a :: as1, b :: bs1 =>
    pyBeq a.1 b.1 && pyBeq a.2 b.2 && pyBeqPairs as1 bs1
  | _, _ => false

end

/-- No two keys of a dict are equal. -/
def keysDistinct : List (PyVal × PyVal) → Bool
  | [] => true
  | p :: t => !(t.any (fun q => pyBeq p.1 q.1)) && keysDistinct t

/-- A valid Unicode scalar value (encodable by Python's strict UTF-8
codec): below 0x110000 and not a surrogate. -/
def validScalar (c : Nat) : Bool :=
  c < 1114112 && !(55296 ≤ c && c ≤ 57343)

mutual

/-- Well-formedness of a modelled Python value as a value `cbor2.dumps`
serializes losslessly: integers within the 64-bit CBOR argument range
(cbor2 switches to bignum tags outside it), strings made of valid Unicode
scalars, bytes made of byte values, float bit patterns below 2^64,
container and string lengths within the argument range, dict keys
distinct, no `pother` values. -/
def wfVal : PyVal → Bool
  | .pint n => decide (-18446744073709551616 ≤ n) && decide (n < 18446744073709551616)
  | .pstr s => s.all validScalar && decide (s.length < 4611686018427387904)
  | .pbytes b => b.all (· < 256) && decide (b.length < 18446744073709551616)
  | .pfloat bits => decide (bits < 18446744073709551616)
  | .pbool _ => true
  | .pnone => true
  | .pother => false
  | .plist xs => decide (xs.length < 18446744073709551616) && wfList xs
  | .pdict xs =>
    decide (xs.length < 18446744073709551616) && keysDistinct xs && wfPairs xs

/-- `wfVal` over a list of values. -/
def wfList : List PyVal → Bool
  | [] => true
  | x :: xs => wfVal x && wfList xs

/-- `wfVal` over a list of key-value pairs. -/
def wfPairs : List (PyVal × PyVal) → Bool
  | [] => true
  | p :: xs => wfVal p.1 && wfVal p.2 && wfPairs xs

end

/-- src/rrc_web/codec.py `MAX_CBOR_SIZE` (1024 * 512). -/
def MAX_CBOR_SIZE : Nat := 524288

/-- src/rrc_web/codec.py `encode`: `cbor2.dumps`. -/
def encode (env : PyVal) : List Nat :=
  encVal env

/-- src/rrc_web/codec.py `decode`: fail when the input exceeds
`MAX_CBOR_SIZE` bytes, else `cbor2.loads` (one CBOR item; the fuel
`data.length + 1` exceeds any possible nesting depth since every nesting
level consumes at least one byte of input). -/
def decode (data : List Nat) : Option PyVal :=
  if MAX_CBOR_SIZE < data.length then none
  else (parseVal (data.length + 1) data).map (·.1)

/-! ## Helper lemmas -/

theorem mem_pyStrip {x : Nat} {s : List Nat} (h : x ∈ pyStrip s) : x ∈ s := by
  unfold pyStrip at h
  rw [List.mem_reverse] at h
  have h2 := (List.dropWhile_sublist isPySpace).mem h
  rw [List.mem_reverse] at h2
  exact (List.dropWhile_sublist isPySpace).mem h2

theorem dictHasKey_of_dictGet {xs : List (PyVal × PyVal)} {k : Int} {v : PyVal}
    (h : dictGet xs k = some v) : dictHasKey xs k = true := by
  unfold dictGet at h
  unfold dictHasKey
  cases hf : List.find? (fun p => pyEqInt p.1 k) xs with
  | none => rw [hf] at h; simp at h
  | some p => simp

/-! ## Claim C7 -/

/-- Claim C7: for every prior client state, after `close()` returns, the
client's pending-expectation table, active-resource set and rooms set are
empty and the link reference is nil. -/
theorem close_clears_client_state (st : ClientState) :
    (clientClose st).resource_expectations = [] ∧
    (clientClose st).active_resources = [] ∧
    (clientClose st).rooms = [] ∧
    (clientClose st).link = none :=
  ⟨rfl, rfl, rfl, rfl⟩

/-! ## Claim C4 -/

/-- An envelope whose required fields are all valid and whose body is the
float 1.25 (IEEE-754 double bit pattern 0x3FF4000000000000). -/
def floatBodyEnv : List (PyVal × PyVal) :=
  [(.pint 0, .pint 1), (.pint 1, .pint 20),
   (.pint 2, .pbytes (List.replicate 8 0)), (.pint 3, .pint 0),
   (.pint 4, .pbytes (List.replicate 16 0)),
   (.pint 6, .pfloat 4608983858650965504)]

/-- Claim C4 counterexample: an envelope whose body field is present and
holds a floating-point number (not one of string / int / bool / map /
list / blob) and whose other fields are all valid nevertheless passes
validation, contradicting the claim that validation fails on it. -/
theorem validate_accepts_float_body :
    dictGet floatBodyEnv K_BODY = some (.pfloat 4608983858650965504) ∧
    validate_envelope (.pdict floatBodyEnv) = true :=
  ⟨rfl, by decide⟩

/-- Claim C4 (amended): envelope validation rejects every envelope whose
body field is present and is not of one of the kinds string, int, float,
bool, map, list, or blob (`None` is also allowed); a floating-point body
with otherwise-valid fields is accepted, not rejected. -/
theorem validate_rejects_unsupported_body (xs : List (PyVal × PyVal))
    (h : dictGet xs K_BODY = some PyVal.pother) :
    validate_envelope (.pdict xs) = false := by
  have hk : dictHasKey xs K_BODY = true := dictHasKey_of_dictGet h
  simp only [validate_envelope, hk, h, if_true, bodyKindOk, Bool.and_false]

/-- Witness for the amended claim C4 at a concrete envelope whose body is
an unsupported Python object. -/
theorem validate_rejects_unsupported_body_witness :
    dictGet [((PyVal.pint 6 : PyVal), PyVal.pother)] K_BODY = some PyVal.pother ∧
    validate_envelope (.pdict [((PyVal.pint 6 : PyVal), PyVal.pother)]) = false :=
  ⟨rfl, validate_rejects_unsupported_body _ rfl⟩

/-! ## Claim C2 -/

/-- A 1025-character message text (all `'a'`): within the handler's
10000-char bound but beyond `sanitize_text_input`'s default 1024-char
bound. -/
def longMsgText : List Nat := List.replicate 1025 97

/-- Claim C2 counterexample: the room `"general"` normalizes to itself
(non-empty, 7 ≤ 64 chars) and the 1025-character text is within the
claimed 10000-char bound, non-empty after stripping, free of control and
non-characters, and does not start with a slash — yet `_handle_send_message`
answers a validation error instead of forwarding to `Client.msg`, because
`sanitize_text_input` is called with its default 1024-char cap. -/
theorem pyStrip_replicate (n c : Nat) (h : isPySpace c = false) :
    pyStrip (List.replicate n c) = List.replicate n c := by
  have hd : ∀ (m : Nat),
      List.dropWhile isPySpace (List.replicate m c) = List.replicate m c := by
    intro m
    rw [List.dropWhile_eq_self_iff]
    intro hl
    rw [List.get_eq_getElem, List.getElem_replicate, h]
    simp
  unfold pyStrip
  rw [hd, List.reverse_replicate, hd, List.reverse_replicate]

theorem send_message_rejects_1025_chars :
    normalize_room_name (S "general") = some (S "general") ∧
    (S "general").length ≤ 64 ∧
    longMsgText.length ≤ 10000 ∧
    pyStrip longMsgText ≠ [] ∧
    (∀ c ∈ longMsgText, badTextChar c = false) ∧
    (pyStrip longMsgText).head? ≠ some 47 ∧
    handle_send_message true (.pstr (S "general")) (.pstr longMsgText) =
      .invalidText := by
  have hstripEq : pyStrip longMsgText = longMsgText :=
    pyStrip_replicate 1025 97 (by decide)
  refine ⟨by decide, by decide, ?_, ?_, ?_, ?_, ?_⟩
  · unfold longMsgText
    rw [List.length_replicate]
    omega
  · rw [hstripEq]
    unfold longMsgText
    intro hEmpty
    have hlen := congrArg List.length hEmpty
    rw [List.length_replicate, List.length_nil] at hlen
    exact absurd hlen (by decide)
  · intro c hc
    rw [List.eq_of_mem_replicate hc]
    decide
  · rw [hstripEq]
    unfold longMsgText
    rw [List.head?_replicate]
    rw [if_neg (by decide)]
    decide
  · have hnil : ¬(longMsgText = []) := by
      intro hEmpty
      have hlen := congrArg List.length hEmpty
      unfold longMsgText at hlen
      rw [List.length_replicate, List.length_nil] at hlen
      exact absurd hlen (by decide)
    have hbig : 1024 < longMsgText.length := by
      unfold longMsgText
      rw [List.length_replicate]
      omega
    have hsan : sanitize_text_input longMsgText 1024 = none := by
      simp only [sanitize_text_input]
      rw [hstripEq, if_neg hnil, if_pos hbig]
    simp only [handle_send_message]
    rw [if_neg (by decide)]
    rw [if_neg (by unfold longMsgText; rw [List.length_replicate]; omega)]
    simp only [Bool.not_true, if_false]
    rw [show normalize_room_name (S "general") = some (S "general") from by decide]
    rw [hsan]
    rfl

/-- Claim C2 (amended): for every `send_message` command whose room is a
string of at most 64 characters normalizing to a non-empty room name and
whose text is a string of at most 10000 characters that is non-empty
after stripping, **at most 1024 characters after stripping**, contains no
character with codepoint below 32 other than tab, LF and CR, none of NUL,
U+FFFE, U+FFFF, and whose stripped form does not start with `'/'`, the
backend forwards the stripped text (and the normalized room) to
`Client.msg` rather than returning a validation error. -/
theorem send_message_forwards_sanitized_text
    (room text nr : List Nat)
    (hroomlen : room.length ≤ 64)
    (hnorm : normalize_room_name room = some nr)
    (htextlen : text.length ≤ 10000)
    (hstrip : pyStrip text ≠ [])
    (hstriplen : (pyStrip text).length ≤ 1024)
    (hchars : ∀ c ∈ text, badTextChar c = false)
    (hslash : (pyStrip text).head? ≠ some 47) :
    handle_send_message true (.pstr room) (.pstr text) =
      .toClientMsg nr (pyStrip text) := by
  have hsan : sanitize_text_input text 1024 = some (pyStrip text) := by
    unfold sanitize_text_input
    rw [if_neg hstrip, if_neg (by omega)]
    have hany : (pyStrip text).any badTextChar = false := by
      rw [List.any_eq_false]
      intro c hc
      simp [hchars c (mem_pyStrip hc)]
    rw [hany]
    simp
  simp only [handle_send_message, hnorm, hsan, Bool.not_true, if_false]
  rw [if_neg (by omega), if_neg (by omega)]
  simp [hslash]

/-- Witness for the amended claim C2 at the concrete command
`room = "General", text = "  hello "`. -/
theorem send_message_forwards_sanitized_text_witness :
    handle_send_message true (.pstr (S "General")) (.pstr (S "  hello ")) =
      .toClientMsg (S "general") (pyStrip (S "  hello ")) :=
  send_message_forwards_sanitized_text (S "General") (S "  hello ") (S "general")
    (by decide) (by decide) (by decide) (by decide) (by decide) (by decide)
    (by decide)

/-! ## Claim C5 -/

/-- An announce dict with `proto == "rrc"`, a non-string `"hub"` value and
a string `"name"` value. -/
def rrcNonStringHubDict : List (PyVal × PyVal) :=
  [(.pstr (S "proto"), .pstr (S "rrc")),
   (.pstr (S "hub"), .pint 42),
   (.pstr (S "name"), .pstr (S "Foo"))]

/-- A destination-hash hex string for announce examples. -/
def sampleHashHex : List Nat := S "00112233445566778899aabbccddeeff"

/-- Claim C5 counterexample: for an acceptable announce map with
`proto == "rrc"`, a `"hub"` key holding the non-string 42, and a `"name"`
key holding the string `"Foo"`, the claim says the hub name falls back to
`"Foo"`; the code never consults the fallback chain once
`proto == "rrc" and "hub" in decoded` holds, and records the synthesized
`"Hub 00112233"` instead. -/
theorem announce_ignores_fallback_when_rrc_hub_nonstring :
    dictGetStr rrcNonStringHubDict (S "proto") = some (.pstr (S "rrc")) ∧
    dictGetStr rrcNonStringHubDict (S "hub") = some (.pint 42) ∧
    dictGetStr rrcNonStringHubDict (S "name") = some (.pstr (S "Foo")) ∧
    announceDictHubName rrcNonStringHubDict sampleHashHex = S "Hub 00112233" ∧
    S "Hub 00112233" ≠ S "Foo" := by
  refine ⟨rfl, rfl, rfl, by decide, by decide⟩

/-- Claim C5 (amended): for an announce whose app_data decodes to an
acceptable map, when its proto field equals `"rrc"` and a `"hub"` key is
present, the hub name is that key's value when it is a string and
otherwise no name is derived (the `"name"`/`"n"`/`"hub"` fallback chain
is not consulted and the synthesized `"Hub <first 8 hex>"` fallback
applies); only when proto is not `"rrc"` or no `"hub"` key exists is the
name taken from the first of `"name"`, `"n"`, `"hub"` holding a string;
the synthesized name is used when no name is derived (and a derived name
is recorded in its display-sanitized form when non-empty and
sanitizable). -/
theorem announce_hub_name_selection (xs : List (PyVal × PyVal))
    (hashHex : List Nat) :
    (∀ s, announceIsRrcHub xs = true →
      dictGetStr xs (S "hub") = some (.pstr s) → dictHubName xs = some s) ∧
    (announceIsRrcHub xs = true →
      (∀ t, dictGetStr xs (S "hub") ≠ some (.pstr t)) →
      announceDictHubName xs hashHex = announceFinalName none hashHex) ∧
    (∀ s, announceIsRrcHub xs = false →
      dictGetStr xs (S "name") = some (.pstr s) → dictHubName xs = some s) ∧
    (∀ s, announceIsRrcHub xs = false →
      (∀ t, dictGetStr xs (S "name") ≠ some (.pstr t)) →
      dictGetStr xs (S "n") = some (.pstr s) → dictHubName xs = some s) ∧
    (∀ s, announceIsRrcHub xs = false →
      (∀ t, dictGetStr xs (S "name") ≠ some (.pstr t)) →
      (∀ t, dictGetStr xs (S "n") ≠ some (.pstr t)) →
      dictGetStr xs (S "hub") = some (.pstr s) → dictHubName xs = some s) ∧
    ((∀ t, dictGetStr xs (S "name") ≠ some (.pstr t)) →
      (∀ t, dictGetStr xs (S "n") ≠ some (.pstr t)) →
      (∀ t, dictGetStr xs (S "hub") ≠ some (.pstr t)) →
      announceDictHubName xs hashHex = announceFinalName none hashHex) ∧
    (∀ s t, dictHubName xs = some s → s ≠ [] →
      sanitize_display_name s 200 = some t →
      announceDictHubName xs hashHex = t) := by
  have strNone : ∀ (v : Option PyVal) (alt : Option (List Nat)),
      (∀ t, v ≠ some (.pstr t)) → strOrElse v alt = alt := by
    intro v alt hno
    unfold strOrElse
    cases v with
    | none => rfl
    | some w =>
      cases w with
      | pstr s => exact absurd rfl (hno s)
      | pint n => rfl
      | pfloat b => rfl
      | pbool b => rfl
      | pbytes b => rfl
      | plist l => rfl
      | pdict d => rfl
      | pnone => rfl
      | pother => rfl
  refine ⟨?_, ?_, ?_, ?_, ?_, ?_, ?_⟩
  · intro s hr hh
    unfold dictHubName
    rw [hr, if_pos rfl, hh]
    rfl
  · intro hr hno
    have hdn : dictHubName xs = none := by
      unfold dictHubName
      rw [hr, if_pos rfl]
      exact strNone _ _ (fun t heq => hno t (by rw [heq]))
    unfold announceDictHubName
    rw [hdn]
  · intro s hr hname
    unfold dictHubName
    rw [hr]
    simp only [Bool.false_eq_true, if_false]
    rw [hname]
    rfl
  · intro s hr hnoname hn
    unfold dictHubName
    rw [hr]
    simp only [Bool.false_eq_true, if_false]
    rw [strNone _ _ (fun t heq => hnoname t (by rw [heq])), hn]
    rfl
  · intro s hr hnoname hnon hh
    unfold dictHubName
    rw [hr]
    simp only [Bool.false_eq_true, if_false]
    rw [strNone _ _ (fun t heq => hnoname t (by rw [heq])),
        strNone _ _ (fun t heq => hnon t (by rw [heq])), hh]
    rfl
  · intro hnoname hnon hnohub
    have hdn : dictHubName xs = none := by
      unfold dictHubName
      cases hr : announceIsRrcHub xs with
      | true =>
        rw [if_pos rfl]
        exact strNone _ _ (fun t heq => hnohub t (by rw [heq]))
      | false =>
        simp only [Bool.false_eq_true, if_false]
        rw [strNone _ _ (fun t heq => hnoname t (by rw [heq])),
            strNone _ _ (fun t heq => hnon t (by rw [heq]))]
        exact strNone _ _ (fun t heq => hnohub t (by rw [heq]))
    unfold announceDictHubName
    rw [hdn]
  · intro s t hsome hne hsan
    unfold announceDictHubName announceFinalName
    rw [hsome]
    simp only [if_neg hne, hsan]

/-- Witness for the amended claim C5: a map with `proto == "rrc"` and a
string `"hub"` value records that value. -/
theorem announce_hub_name_selection_witness :
    announceDictHubName
      [((PyVal.pstr (S "proto") : PyVal), PyVal.pstr (S "rrc")),
       ((PyVal.pstr (S "hub") : PyVal), PyVal.pstr (S "MyHub"))]
      sampleHashHex = S "MyHub" := by
  have hsel :=
    announce_hub_name_selection
      [((PyVal.pstr (S "proto") : PyVal), PyVal.pstr (S "rrc")),
       ((PyVal.pstr (S "hub") : PyVal), PyVal.pstr (S "MyHub"))]
      sampleHashHex
  have hdn := hsel.1 (S "MyHub") (by decide) rfl
  exact hsel.2.2.2.2.2.2 (S "MyHub") (S "MyHub") hdn (by decide) (by decide)

/-! ## Claim C6 -/

/-- Claim C6: once 10 join operations on the key `join:<room>` have been
admitted within the last 5 seconds (their recorded times all within the
sliding window at `now`), the next `join_room` command for that room
returns the rate-limit error and `Client.join` is not invoked (the
`joinRequested` dispatch, which is the only path that contacts the hub,
is not produced). -/
theorem join_room_rate_limited (tbl : RateTable) (now : ℚ)
    (room nr : List Nat)
    (hlen : room.length ≤ 64)
    (hnorm : normalize_room_name room = some nr)
    (hcount : 10 ≤ (((rateLookup tbl (S "join:" ++ nr)).getD []).filter
      (fun t => decide (now - t < 5))).length) :
    (handle_join_room true tbl now (.pstr room)).1 = .rateLimited ∧
    ∀ r, (handle_join_room true tbl now (.pstr room)).1 ≠ .joinRequested r := by
  have hmain : (handle_join_room true tbl now (.pstr room)).1 = .rateLimited := by
    simp only [handle_join_room, check_room_operation_rate_limit, hnorm,
      Bool.not_true, if_false]
    rw [if_neg (by omega), if_pos hcount]
    rfl
  exact ⟨hmain, fun r hcontra => by
    rw [hmain] at hcontra
    exact JoinRoomResult.noConfusion hcontra⟩

/-- A rate table holding 10 admitted joins for room `"general"` at time
0. -/
def joinRateTbl : RateTable := [(S "join:general", List.replicate 10 (0 : ℚ))]

/-- Witness for claim C6: the 11th join of `"general"` at time 1 (all 10
prior joins within the 5-second window) is refused. -/
theorem join_room_rate_limited_witness :
    (handle_join_room true joinRateTbl 1 (.pstr (S "General"))).1 =
      .rateLimited :=
  (join_room_rate_limited joinRateTbl 1 (S "General") (S "general")
    (by decide) (by decide)
    (by simp [joinRateTbl, rateLookup, S, List.filter_replicate])).1

/-! ## Claim C9 -/

theorem assoc_eq_of_nodup_keys {l : List (List Nat × HubRec)}
    (h : (l.map Prod.fst).Nodup) {p q : List Nat × HubRec}
    (hp : p ∈ l) (hq : q ∈ l) (hk : p.1 = q.1) : p = q := by
  induction l with
  | nil => cases hp
  | cons a t ih =>
    rw [List.map_cons, List.nodup_cons] at h
    cases hp with
    | head =>
      cases hq with
      | head => rfl
      | tail _ hq2 =>
        exact absurd (hk ▸ List.mem_map_of_mem Prod.fst hq2) h.1
    | tail _ hp2 =>
      cases hq with
      | head =>
        exact absurd (hk ▸ List.mem_map_of_mem Prod.fst hp2) h.1
      | tail _ hq2 => exact ih h.2 hp2 hq2

/-- Claim C9: the stale-hub GC run by `get_discovered_hubs` removes
exactly the catalog entries with `now - last_seen > 3600`, rewrites the
on-disk cache file iff at least one entry was removed, and leaves catalog
and file untouched when no entry is stale; `_handle_get_discovered_hubs`
runs this GC and returns the surviving catalog values. -/
theorem stale_hub_gc (now : ℚ) (hubs : List (List Nat × HubRec))
    (hnodup : (hubs.map Prod.fst).Nodup) :
    (∀ p, p ∈ (cleanup_stale_hubs now hubs).1 ↔
      p ∈ hubs ∧ ¬(STALE_HUB_THRESHOLD_SECONDS < now - p.2.last_seen)) ∧
    ((cleanup_stale_hubs now hubs).2 = true ↔
      ∃ p ∈ hubs, STALE_HUB_THRESHOLD_SECONDS < now - p.2.last_seen) ∧
    ((cleanup_stale_hubs now hubs).2 = false →
      (cleanup_stale_hubs now hubs).1 = hubs) ∧
    handle_get_discovered_hubs now hubs =
      ((cleanup_stale_hubs now hubs).1.map Prod.snd,
       (cleanup_stale_hubs now hubs).1, (cleanup_stale_hubs now hubs).2) := by
  have hkeys : ∀ p ∈ hubs,
      (((hubs.filter (fun q => decide (STALE_HUB_THRESHOLD_SECONDS < now - q.2.last_seen))).map
        Prod.fst).contains p.1 = true ↔
      STALE_HUB_THRESHOLD_SECONDS < now - p.2.last_seen) := by
    intro p hp
    rw [List.contains_iff_exists_mem_beq]
    constructor
    · rintro ⟨k, hk, hbeq⟩
      rcases List.mem_map.1 hk with ⟨q, hqmem, hqfst⟩
      rcases List.mem_filter.1 hqmem with ⟨hqhubs, hqstale⟩
      have hkeq : p.1 = q.1 := (eq_of_beq hbeq).trans hqfst.symm
      have := assoc_eq_of_nodup_keys hnodup hp hqhubs hkeq
      rw [this]
      exact of_decide_eq_true hqstale
    · intro hstale
      refine ⟨p.1, ?_, by simp⟩
      exact List.mem_map_of_mem Prod.fst
        (List.mem_filter.2 ⟨hp, decide_eq_true hstale⟩)
  refine ⟨?_, ?_, ?_, rfl⟩
  · intro p
    simp only [cleanup_stale_hubs, List.mem_filter]
    constructor
    · rintro ⟨hmem, hnc⟩
      refine ⟨hmem, fun hstale => ?_⟩
      rw [Bool.not_eq_true', ← Bool.not_eq_true] at hnc
      exact hnc ((hkeys p hmem).2 hstale)
    · rintro ⟨hmem, hnstale⟩
      refine ⟨hmem, ?_⟩
      rw [Bool.not_eq_true']
      rw [← Bool.not_eq_true]
      intro hc
      exact hnstale ((hkeys p hmem).1 hc)
  · simp only [cleanup_stale_hubs]
    constructor
    · intro h2
      by_contra hno
      push_neg at hno
      have hfil : hubs.filter
          (fun q => decide (STALE_HUB_THRESHOLD_SECONDS < now - q.2.last_seen)) = [] :=
        List.filter_eq_nil_iff.2 (fun a ha => by simpa using hno a ha)
      rw [hfil] at h2
      simp at h2
    · rintro ⟨p, hp, hstale⟩
      have hmem : p.1 ∈ (hubs.filter
          (fun q => decide (STALE_HUB_THRESHOLD_SECONDS < now - q.2.last_seen))).map
            Prod.fst :=
        List.mem_map_of_mem Prod.fst (List.mem_filter.2 ⟨hp, decide_eq_true hstale⟩)
      rw [Bool.not_eq_true']
      rw [← Bool.not_eq_true, List.isEmpty_iff]
      exact List.ne_nil_of_mem hmem
  · intro hsaved
    simp only [cleanup_stale_hubs] at hsaved ⊢
    rw [Bool.not_eq_false'] at hsaved
    rw [List.isEmpty_iff] at hsaved
    rw [hsaved]
    exact List.filter_eq_self.2 (fun a _ => rfl)

/-- A two-entry catalog: `"aa"` last seen at 0 (stale at time 4000),
`"bb"` last seen at 4000. -/
def hubsSample : List (List Nat × HubRec) :=
  [(S "aa", { name := S "H1", last_seen := 0 }),
   (S "bb", { name := S "H2", last_seen := 4000 })]

/-- Witness for claim C9: with one stale entry the GC reports the cache
file rewritten. -/
theorem stale_hub_gc_witness :
    (cleanup_stale_hubs 4000 hubsSample).2 = true :=
  (stale_hub_gc 4000 hubsSample (by decide)).2.1.2
    ⟨(S "aa", { name := S "H1", last_seen := 0 }),
     List.Mem.head _, by
       show STALE_HUB_THRESHOLD_SECONDS < 4000 - 0
       rw [STALE_HUB_THRESHOLD_SECONDS]
       norm_num⟩

/-! ## Claim C1 -/

theorem extractFirstSize_none_spec (size : Nat) :
    ∀ (tbl : List (List Nat × ResourceExpectation)),
    (extractFirstSize size tbl).1 = none →
    (extractFirstSize size tbl).2 = tbl ∧ ∀ p ∈ tbl, p.2.size ≠ size := by
  intro tbl
  induction tbl with
  | nil => intro _; exact ⟨rfl, fun p hp => absurd hp (List.not_mem_nil p)⟩
  | cons q t ih =>
    intro h
    by_cases hq : q.2.size = size
    · exfalso
      unfold extractFirstSize at h
      rw [if_pos (beq_iff_eq.2 hq)] at h
      exact Option.noConfusion h
    · have hbeq : (q.2.size == size) = false := beq_eq_false_iff_ne.2 hq
      unfold extractFirstSize at h ⊢
      rw [if_neg (by simp [hbeq])] at h ⊢
      have hres := ih h
      refine ⟨?_, fun p hp => ?_⟩
      · show q :: (extractFirstSize size t).2 = q :: t
        rw [hres.1]
      · cases hp with
        | head => exact hq
        | tail _ hp2 => exact hres.2 p hp2

theorem extractFirstSize_some_spec (size : Nat) :
    ∀ (tbl : List (List Nat × ResourceExpectation))
    (e : ResourceExpectation),
    (extractFirstSize size tbl).1 = some e →
    ∃ pre k post, tbl = pre ++ (k, e) :: post ∧
      (extractFirstSize size tbl).2 = pre ++ post ∧
      e.size = size ∧ ∀ p ∈ pre, p.2.size ≠ size := by
  intro tbl
  induction tbl with
  | nil => intro e h; exact Option.noConfusion h
  | cons q t ih =>
    intro e h
    by_cases hq : q.2.size = size
    · unfold extractFirstSize at h
      rw [if_pos (beq_iff_eq.2 hq)] at h
      have he : q.2 = e := Option.some.inj h
      refine ⟨[], q.1, t, ?_, ?_, ?_, ?_⟩
      · rw [List.nil_append, ← he]
      · unfold extractFirstSize
        rw [if_pos (beq_iff_eq.2 hq)]
        show t = [] ++ t
        rw [List.nil_append]
      · rw [← he]; exact hq
      · intro p hp; exact absurd hp (List.not_mem_nil p)
    · have hbeq : (q.2.size == size) = false := beq_eq_false_iff_ne.2 hq
      unfold extractFirstSize at h
      rw [if_neg (by simp [hbeq])] at h
      rcases ih e h with ⟨pre, k, post, htbl, hrest, hsize, hpre⟩
      refine ⟨q :: pre, k, post, ?_, ?_, hsize, ?_⟩
      · rw [List.cons_append, ← htbl]
      · unfold extractFirstSize
        rw [if_neg (by simp [hbeq])]
        show q :: (extractFirstSize size t).2 = (q :: pre) ++ post
        rw [hrest, List.cons_append]
      · intro p hp
        cases hp with
        | head => exact hq
        | tail _ hp2 => exact hpre p hp2

theorem extractFirstSize_isSome_iff (size : Nat) :
    ∀ (tbl : List (List Nat × ResourceExpectation)),
    (extractFirstSize size tbl).1.isSome = true ↔
      ∃ p ∈ tbl, p.2.size = size := by
  intro tbl
  induction tbl with
  | nil =>
    constructor
    · intro h; simp [extractFirstSize] at h
    · rintro ⟨p, hp, _⟩; exact absurd hp (List.not_mem_nil p)
  | cons q t ih =>
    by_cases hq : q.2.size = size
    · constructor
      · intro _; exact ⟨q, List.Mem.head _, hq⟩
      · intro _
        unfold extractFirstSize
        rw [if_pos (beq_iff_eq.2 hq)]
        rfl
    · have hbeq : (q.2.size == size) = false := beq_eq_false_iff_ne.2 hq
      unfold extractFirstSize
      rw [if_neg (by simp [hbeq])]
      constructor
      · intro h
        rcases ih.1 h with ⟨p, hp, hps⟩
        exact ⟨p, List.Mem.tail _ hp, hps⟩
      · rintro ⟨p, hp, hps⟩
        cases hp with
        | head => exact absurd hps hq
        | tail _ hp2 => exact ih.2 ⟨p, hp2, hps⟩

theorem mem_setAdd_self (r : Nat) (s : List Nat) : r ∈ setAdd r s := by
  unfold setAdd
  by_cases h : s.contains r
  · rw [if_pos h]
    exact List.mem_of_elem_eq_true h
  · rw [if_neg h]
    exact List.Mem.head _

/-- Claim C1: the client accepts an advertised resource transfer iff its
total size is at most `max_resource_bytes`, the active set is strictly
below `max_active_resources`, and a pending non-expired expectation with
equal size exists; on accept, exactly the earliest-inserted non-expired
expectation matching the size is consumed from the pending table (which
is also purged of expired entries) and the resource joins the active
set. -/
theorem resource_advertised_spec (cfg : ClientConfig) (now : ℚ)
    (res size : Nat) (st : ClientState) :
    ((resource_advertised cfg now res size st).1 = true ↔
      size ≤ cfg.max_resource_bytes ∧
      st.active_resources.length < cfg.max_active_resources ∧
      ∃ p ∈ st.resource_expectations, p.2.size = size ∧ now < p.2.expires_at) ∧
    ((resource_advertised cfg now res size st).1 = true →
      ∃ pre k e post,
        cleanupExpiredExpectations now st.resource_expectations =
          pre ++ (k, e) :: post ∧
        e.size = size ∧ (∀ p ∈ pre, p.2.size ≠ size) ∧
        (∀ p ∈ pre ++ (k, e) :: post, now < p.2.expires_at) ∧
        (resource_advertised cfg now res size st).2.resource_expectations =
          pre ++ post ∧
        res ∈ (resource_advertised cfg now res size st).2.active_resources) := by
  by_cases h1 : cfg.max_resource_bytes < size
  · have hadv : resource_advertised cfg now res size st = (false, st) := by
      unfold resource_advertised
      rw [if_pos h1]
    rw [hadv]
    refine ⟨⟨fun hcontra => absurd hcontra (by simp), ?_⟩,
      fun hcontra => absurd hcontra (by simp)⟩
    rintro ⟨hsz, _, _⟩
    omega
  · by_cases h2 : cfg.max_active_resources ≤ st.active_resources.length
    · have hadv : resource_advertised cfg now res size st = (false, st) := by
        unfold resource_advertised
        rw [if_neg h1, if_pos h2]
      rw [hadv]
      refine ⟨⟨fun hcontra => absurd hcontra (by simp), ?_⟩,
        fun hcontra => absurd hcontra (by simp)⟩
      rintro ⟨_, hact, _⟩
      omega
    · rcases hfind : find_resource_expectation now size st.resource_expectations
        with ⟨o, tbl2⟩
      unfold find_resource_expectation at hfind
      have hadvEq : resource_advertised cfg now res size st =
          (match (o, tbl2) with
           | (none, tbl) => (false, { st with resource_expectations := tbl })
           | (some exp, tbl) =>
             (true,
              { st with
                resource_expectations := tbl
                active_resources := setAdd res st.active_resources
                resource_to_expectation :=
                  assocSetRes st.resource_to_expectation res exp })) := by
        unfold resource_advertised
        rw [if_neg h1, if_neg h2]
        unfold find_resource_expectation
        rw [hfind]
      cases o with
      | none =>
        have hnone :=
          extractFirstSize_none_spec size
            (cleanupExpiredExpectations now st.resource_expectations)
            (by rw [hfind])
        rw [hadvEq]
        refine ⟨⟨fun hcontra => absurd hcontra (by simp), ?_⟩,
          fun hcontra => absurd hcontra (by simp)⟩
        rintro ⟨_, _, p, hp, hpsize, hpexp⟩
        exact absurd hpsize
          (hnone.2 p (List.mem_filter.2 ⟨hp, decide_eq_true hpexp⟩))
      | some e =>
        have hsome :=
          extractFirstSize_some_spec size
            (cleanupExpiredExpectations now st.resource_expectations) e
            (by rw [hfind])
        rcases hsome with ⟨pre, k, post, htbl, hrest, hesize, hpre⟩
        have htbl2 : tbl2 = pre ++ post := by
          have := congrArg Prod.snd hfind
          simp only at this
          rw [← this, hrest]
        rw [hadvEq]
        have hexp : ∀ p ∈ pre ++ (k, e) :: post, now < p.2.expires_at := by
          intro p hp
          rw [← htbl] at hp
          exact of_decide_eq_true (List.mem_filter.1 hp).2
        refine ⟨⟨fun _ => ⟨by omega, by omega, ?_⟩, fun _ => by simp⟩, fun _ => ?_⟩
        · refine ⟨(k, e), ?_, hesize, ?_⟩
          · have hmem : (k, e) ∈ cleanupExpiredExpectations now
                st.resource_expectations := by
              rw [htbl]
              exact List.mem_append_right pre (List.Mem.head post)
            exact (List.mem_filter.1 hmem).1
          · exact hexp (k, e) (List.mem_append_right pre (List.Mem.head post))
        · refine ⟨pre, k, e, post, htbl, hesize, hpre, hexp, ?_, ?_⟩
          · show tbl2 = pre ++ post
            exact htbl2
          · show res ∈ setAdd res st.active_resources
            exact mem_setAdd_self res st.active_resources

/-- A pending expectation of size 100 created at time 0. -/
def expSample : ResourceExpectation :=
  { id := [1], kind := S "notice", size := 100, sha256 := none,
    encoding := none, created_at := 0, expires_at := 30, room := none }

/-- A client state holding exactly one pending expectation and no active
transfers. -/
def stSample : ClientState :=
  { link := some 0, rooms := [],
    resource_expectations := [([1], expSample)],
    active_resources := [], resource_to_expectation := [] }

/-- Witness for claim C1: a 100-byte advertisement at time 1 against
`stSample` is accepted. -/
theorem resource_advertised_spec_witness :
    (resource_advertised defaultClientConfig 1 7 100 stSample).1 = true :=
  (resource_advertised_spec defaultClientConfig 1 7 100 stSample).1.2
    ⟨by decide, by decide,
     ⟨([1], expSample), List.Mem.head _, rfl, by
       show (1 : ℚ) < expSample.expires_at
       rw [show expSample.expires_at = 30 from rfl]
       norm_num⟩⟩

/-! ## Claims C3 and C10: eviction and insertion machinery -/

theorem minCreated_decomp :
    ∀ (t : List (List Nat × ResourceExpectation))
      (p0 : List Nat × ResourceExpectation),
    ∃ pre m post, p0 :: t = pre ++ m :: post ∧ m.1 = minCreatedKey p0 t ∧
      (∀ p ∈ p0 :: t, m.2.created_at ≤ p.2.created_at) ∧
      (∀ p ∈ pre, m.2.created_at < p.2.created_at) := by
  intro t
  induction t with
  | nil =>
    intro p0
    refine ⟨[], p0, [], rfl, rfl, ?_, fun p hp => absurd hp (List.not_mem_nil p)⟩
    intro p hp
    cases hp with
    | head => exact le_refl _
    | tail _ h2 => exact absurd h2 (List.not_mem_nil p)
  | cons q t2 ih =>
    intro p0
    by_cases hlt : q.2.created_at < p0.2.created_at
    · rcases ih q with ⟨pre2, m, post2, hdec, hkey, hmin, hpre⟩
      refine ⟨p0 :: pre2, m, post2, ?_, ?_, ?_, ?_⟩
      · rw [List.cons_append, ← hdec]
      · show m.1 = minCreatedKey p0 (q :: t2)
        unfold minCreatedKey
        rw [if_pos hlt]
        exact hkey
      · intro p hp
        cases hp with
        | head => exact le_of_lt (lt_of_le_of_lt (hmin q (List.Mem.head _)) hlt)
        | tail _ h2 => exact hmin p h2
      · intro p hp
        cases hp with
        | head => exact lt_of_le_of_lt (hmin q (List.Mem.head _)) hlt
        | tail _ h2 => exact hpre p h2
    · have hle : p0.2.created_at ≤ q.2.created_at := le_of_not_lt hlt
      rcases ih p0 with ⟨pre2, m, post2, hdec, hkey, hmin, hpre⟩
      cases pre2 with
      | nil =>
        rw [List.nil_append] at hdec
        injection hdec with h1 h2
        refine ⟨[], p0, q :: t2, rfl, ?_, ?_,
          fun p hp => absurd hp (List.not_mem_nil p)⟩
        · show p0.1 = minCreatedKey p0 (q :: t2)
          unfold minCreatedKey
          rw [if_neg hlt]
          rw [show p0.1 = m.1 from by rw [h1]]
          exact hkey
        · intro p hp
          cases hp with
          | head => exact le_refl _
          | tail _ h2' =>
            cases h2' with
            | head => exact hle
            | tail _ h3 =>
              have hm := hmin p (List.Mem.tail _ h3)
              rw [h1]
              exact hm
      | cons a pre3 =>
        rw [List.cons_append] at hdec
        injection hdec with h1 h2
        refine ⟨p0 :: q :: pre3, m, post2, ?_, ?_, ?_, ?_⟩
        · rw [List.cons_append, List.cons_append, ← h2]
        · show m.1 = minCreatedKey p0 (q :: t2)
          unfold minCreatedKey
          rw [if_neg hlt]
          exact hkey
        · intro p hp
          cases hp with
          | head => exact hmin p0 (List.Mem.head _)
          | tail _ h2' =>
            cases h2' with
            | head => exact le_trans (hmin p0 (List.Mem.head _)) hle
            | tail _ h3 => exact hmin p (List.Mem.tail _ h3)
        · intro p hp
          have hstrict0 : m.2.created_at < p0.2.created_at := by
            have := hpre a (List.Mem.head _)
            rwa [← h1] at this
          cases hp with
          | head => exact hstrict0
          | tail _ h2' =>
            cases h2' with
            | head => exact lt_of_lt_of_le hstrict0 hle
            | tail _ h3 => exact hpre p (List.Mem.tail _ h3)

theorem removeMinCreated_spec (tbl : List (List Nat × ResourceExpectation))
    (hnodup : (tbl.map Prod.fst).Nodup) (hne : tbl ≠ []) :
    ∃ pre m post, tbl = pre ++ m :: post ∧
      (∀ p ∈ tbl, m.2.created_at ≤ p.2.created_at) ∧
      (∀ p ∈ pre, m.2.created_at < p.2.created_at) ∧
      removeMinCreated tbl = pre ++ post := by
  cases tbl with
  | nil => exact absurd rfl hne
  | cons p0 t =>
    rcases minCreated_decomp t p0 with ⟨pre, m, post, hdec, hkey, hmin, hpre⟩
    refine ⟨pre, m, post, hdec, hmin, hpre, ?_⟩
    show (p0 :: t).filter (fun p => !(p.1 == minCreatedKey p0 t)) = pre ++ post
    rw [← hkey, hdec]
    rw [hdec, List.map_append, List.nodup_append] at hnodup
    rcases hnodup with ⟨hpreN, hpostN, hdisj⟩
    rw [List.map_cons, List.nodup_cons] at hpostN
    have hmnotpre : ∀ p ∈ pre, p.1 ≠ m.1 := by
      intro p hp heq
      exact hdisj (List.mem_map_of_mem Prod.fst hp)
        (heq ▸ List.Mem.head _)
    have hmnotpost : ∀ p ∈ post, p.1 ≠ m.1 := by
      intro p hp heq
      exact hpostN.1 (heq ▸ List.mem_map_of_mem Prod.fst hp)
    rw [List.filter_append]
    have h1 : pre.filter (fun p => !(p.1 == m.1)) = pre :=
      List.filter_eq_self.2 (fun p hp => by
        simp [beq_eq_false_iff_ne.2 (hmnotpre p hp)])
    have h2 : (m :: post).filter (fun p => !(p.1 == m.1)) = post := by
      rw [List.filter_cons]
      rw [if_neg (by simp)]
      exact List.filter_eq_self.2 (fun p hp => by
        simp [beq_eq_false_iff_ne.2 (hmnotpost p hp)])
    rw [h1, h2]

theorem assocGetExp_assocSetExp
    (m : List (List Nat × ResourceExpectation)) (k : List Nat)
    (v : ResourceExpectation) :
    assocGetExp (assocSetExp m k v) k = some v := by
  induction m with
  | nil =>
    unfold assocSetExp assocGetExp
    rw [List.find?_cons_of_pos _ (by simp)]
    rfl
  | cons p t ih =>
    unfold assocSetExp
    by_cases hp : (p.1 == k) = true
    · rw [if_pos hp]
      unfold assocGetExp
      rw [List.find?_cons_of_pos _ (by simp)]
      rfl
    · rw [if_neg hp]
      have hpf : (p.1 == k) = false := by
        revert hp
        cases p.1 == k <;> simp
      unfold assocGetExp at ih ⊢
      simp only [List.find?_cons, hpf]
      exact ih

theorem length_assocSetExp_le
    (m : List (List Nat × ResourceExpectation)) (k : List Nat)
    (v : ResourceExpectation) :
    (assocSetExp m k v).length ≤ m.length + 1 := by
  induction m with
  | nil => simp [assocSetExp]
  | cons p t ih =>
    unfold assocSetExp
    by_cases hp : (p.1 == k) = true
    · rw [if_pos hp]
      simp
    · rw [if_neg hp]
      simp only [List.length_cons]
      omega

theorem assocSetExp_replace
    (m : List (List Nat × ResourceExpectation)) (k : List Nat)
    (v : ResourceExpectation)
    (hmem : k ∈ m.map Prod.fst) (hnodup : (m.map Prod.fst).Nodup) :
    assocSetExp m k v = m.map (fun p => if p.1 == k then (k, v) else p) := by
  induction m with
  | nil => exact absurd hmem (List.not_mem_nil k)
  | cons p t ih =>
    rw [List.map_cons, List.nodup_cons] at hnodup
    unfold assocSetExp
    by_cases hp : (p.1 == k) = true
    · rw [if_pos hp, List.map_cons, if_pos hp]
      have hknot : k ∉ t.map Prod.fst := by
        have := hnodup.1
        rwa [eq_of_beq hp] at this
      have hid : ∀ q ∈ t, (if q.1 == k then (k, v) else q) = q := by
        intro q hq
        rw [if_neg]
        intro hqk
        exact hknot (eq_of_beq hqk ▸ List.mem_map_of_mem Prod.fst hq)
      rw [List.map_congr_left hid]
      simp
    · rw [if_neg hp, List.map_cons, if_neg hp]
      have hmem2 : k ∈ t.map Prod.fst := by
        rw [List.map_cons] at hmem
        cases hmem with
        | head => exact absurd (beq_iff_eq.2 rfl) hp
        | tail _ h2 => exact h2
      rw [ih hmem2 hnodup.2]

/-- Claim C3: when a valid RESOURCE_ENVELOPE is processed with the
pending table already at its cap of 8, the entry with the smallest
`created_at` (the earliest-inserted one on ties, matching Python's `min`
over insertion-ordered keys) is evicted before the new expectation is
recorded; the table never grows beyond 8 entries, and the recorded
expectation satisfies `expires_at = created_at + 30`. -/
theorem resource_envelope_eviction_and_ttl (now : ℚ) (rid kind : List Nat)
    (size : Nat) (sha enc room : Option (List Nat))
    (tbl : List (List Nat × ResourceExpectation))
    (hnodup : (tbl.map Prod.fst).Nodup) :
    (tbl.length ≤ 8 →
      (recordResourceExpectation defaultClientConfig now rid kind size
        sha enc room tbl).length ≤ 8) ∧
    (tbl.length = 8 →
      ∃ pre m post, tbl = pre ++ m :: post ∧
        (∀ p ∈ tbl, m.2.created_at ≤ p.2.created_at) ∧
        (∀ p ∈ pre, m.2.created_at < p.2.created_at) ∧
        recordResourceExpectation defaultClientConfig now rid kind size
          sha enc room tbl =
        assocSetExp (pre ++ post) rid
          (newResourceExpectation defaultClientConfig now rid kind size
            sha enc room)) ∧
    (assocGetExp
        (recordResourceExpectation defaultClientConfig now rid kind size
          sha enc room tbl) rid =
      some (newResourceExpectation defaultClientConfig now rid kind size
        sha enc room) ∧
     (newResourceExpectation defaultClientConfig now rid kind size
        sha enc room).expires_at =
      (newResourceExpectation defaultClientConfig now rid kind size
        sha enc room).created_at + 30) := by
  have hrec8 : 8 ≤ tbl.length →
      recordResourceExpectation defaultClientConfig now rid kind size
        sha enc room tbl =
      assocSetExp (removeMinCreated tbl) rid
        (newResourceExpectation defaultClientConfig now rid kind size
          sha enc room) := by
    intro h
    unfold recordResourceExpectation
    rw [if_pos (show defaultClientConfig.max_pending_resource_expectations ≤
      tbl.length from h)]
  have hrecLt : ¬(8 ≤ tbl.length) →
      recordResourceExpectation defaultClientConfig now rid kind size
        sha enc room tbl =
      assocSetExp tbl rid
        (newResourceExpectation defaultClientConfig now rid kind size
          sha enc room) := by
    intro h
    unfold recordResourceExpectation
    rw [if_neg (show ¬(defaultClientConfig.max_pending_resource_expectations ≤
      tbl.length) from h)]
  refine ⟨?_, ?_, ?_, rfl⟩
  · intro hle
    by_cases h8 : 8 ≤ tbl.length
    · have hne : tbl ≠ [] := by
        intro hnil
        rw [hnil] at h8
        exact absurd h8 (by decide)
      rcases removeMinCreated_spec tbl hnodup hne with
        ⟨pre, m, post, hdec, _, _, hrem⟩
      rw [hrec8 h8]
      have hlen : (removeMinCreated tbl).length = tbl.length - 1 := by
        rw [hrem, hdec]
        simp only [List.length_append, List.length_cons]
        omega
      have := length_assocSetExp_le (removeMinCreated tbl) rid
        (newResourceExpectation defaultClientConfig now rid kind size
          sha enc room)
      omega
    · rw [hrecLt h8]
      have := length_assocSetExp_le tbl rid
        (newResourceExpectation defaultClientConfig now rid kind size
          sha enc room)
      omega
  · intro h8
    have hne : tbl ≠ [] := by
      intro hnil
      rw [hnil] at h8
      exact absurd h8 (by decide)
    rcases removeMinCreated_spec tbl hnodup hne with
      ⟨pre, m, post, hdec, hmin, hpre, hrem⟩
    refine ⟨pre, m, post, hdec, hmin, hpre, ?_⟩
    rw [hrec8 (by omega), hrem]
  · by_cases h8 : 8 ≤ tbl.length
    · rw [hrec8 h8]
      exact assocGetExp_assocSetExp _ _ _
    · rw [hrecLt h8]
      exact assocGetExp_assocSetExp _ _ _

/-- An 8-entry pending table with distinct resource ids. -/
def tblEight : List (List Nat × ResourceExpectation) :=
  [([0], expSample), ([1], expSample), ([2], expSample), ([3], expSample),
   ([4], expSample), ([5], expSample), ([6], expSample), ([7], expSample)]

/-- Witness for claim C3: recording a 9th expectation over a full
8-entry table keeps the table within 8 entries. -/
theorem resource_envelope_eviction_and_ttl_witness :
    (recordResourceExpectation defaultClientConfig 5 [9] (S "notice") 120
      none none none tblEight).length ≤ 8 :=
  (resource_envelope_eviction_and_ttl 5 [9] (S "notice") 120 none none none
    tblEight (by decide)).1 (by decide)

/-- Claim C10: the pending table is keyed by resource id — a valid
RESOURCE_ENVELOPE whose id is already pending replaces the old entry in
place (same keys, same length, same positions) with fresh `created_at`
and `expires_at`; and the capacity check fires whenever the table holds 8
entries even for such a replacement, so a duplicate arriving at capacity
still evicts the entry with the smallest `created_at`. -/
theorem resource_envelope_duplicate_id (now : ℚ) (rid kind : List Nat)
    (size : Nat) (sha enc room : Option (List Nat))
    (tbl : List (List Nat × ResourceExpectation))
    (hnodup : (tbl.map Prod.fst).Nodup)
    (hmem : rid ∈ tbl.map Prod.fst) :
    (tbl.length < 8 →
      recordResourceExpectation defaultClientConfig now rid kind size
        sha enc room tbl =
        tbl.map (fun p => if p.1 == rid then
          (rid, newResourceExpectation defaultClientConfig now rid kind size
            sha enc room)
          else p) ∧
      (recordResourceExpectation defaultClientConfig now rid kind size
        sha enc room tbl).length = tbl.length) ∧
    (tbl.length = 8 →
      ∃ pre m post, tbl = pre ++ m :: post ∧
        (∀ p ∈ tbl, m.2.created_at ≤ p.2.created_at) ∧
        (∀ p ∈ pre, m.2.created_at < p.2.created_at) ∧
        recordResourceExpectation defaultClientConfig now rid kind size
          sha enc room tbl =
        assocSetExp (pre ++ post) rid
          (newResourceExpectation defaultClientConfig now rid kind size
            sha enc room)) ∧
    ((newResourceExpectation defaultClientConfig now rid kind size
        sha enc room).created_at = now ∧
     (newResourceExpectation defaultClientConfig now rid kind size
        sha enc room).expires_at = now + 30) := by
  refine ⟨?_, ?_, rfl, rfl⟩
  · intro hlt
    have hrecLt : recordResourceExpectation defaultClientConfig now rid kind
        size sha enc room tbl =
        assocSetExp tbl rid
          (newResourceExpectation defaultClientConfig now rid kind size
            sha enc room) := by
      unfold recordResourceExpectation
      rw [if_neg (show ¬(defaultClientConfig.max_pending_resource_expectations ≤
        tbl.length) from ((by omega : ¬(8 ≤ tbl.length))))]
    have hrepl := assocSetExp_replace tbl rid
      (newResourceExpectation defaultClientConfig now rid kind size
        sha enc room) hmem hnodup
    refine ⟨by rw [hrecLt, hrepl], ?_⟩
    rw [hrecLt, hrepl, List.length_map]
  · intro h8
    have hne : tbl ≠ [] := by
      intro hnil
      rw [hnil] at h8
      exact absurd h8 (by decide)
    rcases removeMinCreated_spec tbl hnodup hne with
      ⟨pre, m, post, hdec, hmin, hpre, hrem⟩
    refine ⟨pre, m, post, hdec, hmin, hpre, ?_⟩
    unfold recordResourceExpectation
    rw [if_pos (show defaultClientConfig.max_pending_resource_expectations ≤
      tbl.length from ((by omega : 8 ≤ tbl.length))), hrem]

/-- A two-entry pending table containing the id `[5]`. -/
def tblTwo : List (List Nat × ResourceExpectation) :=
  [([5], expSample), ([6], expSample)]

/-- Witness for claim C10: replacing the pending entry `[5]` in a
two-entry table leaves the table length unchanged. -/
theorem resource_envelope_duplicate_id_witness :
    (recordResourceExpectation defaultClientConfig 3 [5] (S "notice") 100
      none none none tblTwo).length = tblTwo.length :=
  ((resource_envelope_duplicate_id 3 [5] (S "notice") 100 none none none
    tblTwo (by decide) (by decide)).1 (by decide)).2

/-! ## Claim C8: byte-level codec lemmas -/

theorem length_bytesBE : ∀ (k n : Nat), (bytesBE k n).length = k := by
  intro k
  induction k with
  | zero => intro n; rfl
  | succ k2 ih =>
    intro n
    unfold bytesBE
    rw [List.length_append, ih]
    rfl

theorem beVal_append (l1 : List Nat) :
    ∀ (acc : Nat) (l2 : List Nat), beVal acc (l1 ++ l2) = beVal (beVal acc l1) l2 := by
  induction l1 with
  | nil => intro acc l2; rfl
  | cons b t ih =>
    intro acc l2
    show beVal (acc * 256 + b) (t ++ l2) = beVal (beVal (acc * 256 + b) t) l2
    exact ih (acc * 256 + b) l2

theorem beVal_bytesBE : ∀ (k : Nat), ∀ (n acc : Nat), n < 256 ^ k →
    beVal acc (bytesBE k n) = acc * 256 ^ k + n := by
  intro k
  induction k with
  | zero =>
    intro n acc hn
    have : n = 0 := by
      have : (256 : Nat) ^ 0 = 1 := by norm_num
      omega
    subst this
    show acc = acc * 256 ^ 0 + 0
    simp
  | succ k2 ih =>
    intro n acc hn
    unfold bytesBE
    rw [beVal_append]
    have hdivlt : n / 256 < 256 ^ k2 := by
      rw [Nat.div_lt_iff_lt_mul (by norm_num : (0:Nat) < 256)]
      calc n < 256 ^ (k2 + 1) := hn
        _ = 256 ^ k2 * 256 := by ring
    rw [ih (n / 256) acc hdivlt]
    show (acc * 256 ^ k2 + n / 256) * 256 + n % 256 = acc * 256 ^ (k2 + 1) + n
    have hmod := Nat.div_add_mod n 256
    calc (acc * 256 ^ k2 + n / 256) * 256 + n % 256
        = acc * (256 ^ k2 * 256) + (256 * (n / 256) + n % 256) := by ring
      _ = acc * 256 ^ (k2 + 1) + n := by
          rw [hmod]
          ring

theorem readBE_bytesBE (k n : Nat) (rest : List Nat) (hn : n < 256 ^ k) :
    readBE k (bytesBE k n ++ rest) = some (n, rest) := by
  unfold readBE
  rw [if_pos (by rw [List.length_append, length_bytesBE]; omega)]
  rw [List.take_left' (length_bytesBE k n), List.drop_left' (length_bytesBE k n)]
  rw [beVal_bytesBE k n 0 hn]
  simp

theorem readN_exact (l rest : List Nat) :
    readN l.length (l ++ rest) = some (l, rest) := by
  unfold readN
  rw [if_pos (by rw [List.length_append]; omega)]
  rw [List.take_left' rfl, List.drop_left' rfl]

theorem encodeHead_decomp (m n : Nat) (hm : m ≤ 5)
    (hn : n < 18446744073709551616) :
    ∃ b l, encodeHead m n = b :: l ∧ b / 32 = m ∧
      ∀ rest, readArg (b % 32) (l ++ rest) = some (n, rest) := by
  unfold encodeHead
  by_cases h1 : n < 24
  · rw [if_pos h1]
    refine ⟨m * 32 + n, [], rfl, by omega, ?_⟩
    intro rest
    rw [List.nil_append, show (m * 32 + n) % 32 = n from by omega]
    unfold readArg
    rw [if_pos h1]
  · rw [if_neg h1]
    by_cases h2 : n < 256
    · rw [if_pos h2]
      refine ⟨m * 32 + 24, [n], rfl, by omega, ?_⟩
      intro rest
      rw [show (m * 32 + 24) % 32 = 24 from by omega]
      unfold readArg
      rw [if_neg (by omega), if_pos (by decide)]
      have hb : bytesBE 1 n = [n] := by
        show bytesBE 0 (n / 256) ++ [n % 256] = [n]
        rw [show bytesBE 0 (n / 256) = [] from rfl, List.nil_append,
          show n % 256 = n from by omega]
      rw [← hb]
      exact readBE_bytesBE 1 n rest (by norm_num; omega)
    · rw [if_neg h2]
      by_cases h3 : n < 65536
      · rw [if_pos h3]
        refine ⟨m * 32 + 25, bytesBE 2 n, rfl, by omega, ?_⟩
        intro rest
        rw [show (m * 32 + 25) % 32 = 25 from by omega]
        unfold readArg
        rw [if_neg (by omega), if_neg (by decide), if_pos (by decide)]
        exact readBE_bytesBE 2 n rest (by norm_num; omega)
      · rw [if_neg h3]
        by_cases h4 : n < 4294967296
        · rw [if_pos h4]
          refine ⟨m * 32 + 26, bytesBE 4 n, rfl, by omega, ?_⟩
          intro rest
          rw [show (m * 32 + 26) % 32 = 26 from by omega]
          unfold readArg
          rw [if_neg (by omega), if_neg (by decide), if_neg (by decide),
            if_pos (by decide)]
          exact readBE_bytesBE 4 n rest (by norm_num; omega)
        · rw [if_neg h4]
          refine ⟨m * 32 + 27, bytesBE 8 n, rfl, by omega, ?_⟩
          intro rest
          rw [show (m * 32 + 27) % 32 = 27 from by omega]
          unfold readArg
          rw [if_neg (by omega), if_neg (by decide), if_neg (by decide),
            if_neg (by decide), if_pos (by decide)]
          exact readBE_bytesBE 8 n rest (by norm_num; omega)

theorem utf8_char_roundtrip (c : Nat) (hc : validScalar c = true)
    (rest : List Nat) :
    utf8DecodeList (utf8EncodeChar c ++ rest) =
      (utf8DecodeList rest).map (c :: ·) := by
  have hc2 : c < 1114112 ∧ ¬(55296 ≤ c ∧ c ≤ 57343) := by
    unfold validScalar at hc
    simp only [Bool.and_eq_true, decide_eq_true_eq, Bool.not_eq_true',
      Bool.and_eq_false_iff, decide_eq_false_iff_not] at hc
    omega
  by_cases h1 : c < 128
  · unfold utf8EncodeChar
    rw [if_pos h1]
    show utf8DecodeList (c :: rest) = _
    simp only [utf8DecodeList]
    rw [if_pos h1]
  · by_cases h2 : c < 2048
    · unfold utf8EncodeChar
      rw [if_neg h1, if_pos h2]
      show utf8DecodeList ((192 + c / 64) :: (128 + c % 64) :: rest) = _
      simp only [utf8DecodeList]
      rw [if_neg (by omega), if_neg (by omega), if_pos (by omega)]
      simp only [utf8DecodeTwo, utf8Cont]
      rw [if_pos (by simp only [Bool.and_eq_true, decide_eq_true_eq]; omega)]
      rw [show (192 + c / 64 - 192) * 64 + (128 + c % 64 - 128) = c from by omega]
      rw [if_pos (by omega)]
    · by_cases h3 : c < 65536
      · unfold utf8EncodeChar
        rw [if_neg h1, if_neg h2, if_pos h3]
        show utf8DecodeList
          ((224 + c / 4096) :: (128 + c / 64 % 64) :: (128 + c % 64) :: rest) = _
        simp only [utf8DecodeList]
        rw [if_neg (by omega), if_neg (by omega), if_neg (by omega),
          if_pos (by omega)]
        simp only [utf8DecodeThree, utf8DecodeThreeTail, utf8Cont]
        rw [if_pos (by simp only [Bool.and_eq_true, decide_eq_true_eq]; omega)]
        rw [show (224 + c / 4096 - 224) * 4096 + (128 + c / 64 % 64 - 128) * 64 +
          (128 + c % 64 - 128) = c from by omega]
        rw [if_pos (by
          simp only [Bool.and_eq_true, decide_eq_true_eq, Bool.not_eq_true',
            Bool.and_eq_false_iff, decide_eq_false_iff_not]
          omega)]
      · unfold utf8EncodeChar
        rw [if_neg h1, if_neg h2, if_neg h3]
        show utf8DecodeList
          ((240 + c / 262144) :: (128 + c / 4096 % 64) :: (128 + c / 64 % 64) ::
            (128 + c % 64) :: rest) = _
        simp only [utf8DecodeList]
        rw [if_neg (by omega), if_neg (by omega), if_neg (by omega),
          if_neg (by omega), if_pos (by omega)]
        simp only [utf8DecodeFour, utf8DecodeFourA, utf8DecodeFourB, utf8Cont]
        rw [if_pos (by simp only [Bool.and_eq_true, decide_eq_true_eq]; omega)]
        rw [show (240 + c / 262144 - 240) * 262144 +
          (128 + c / 4096 % 64 - 128) * 4096 + (128 + c / 64 % 64 - 128) * 64 +
          (128 + c % 64 - 128) = c from by omega]
        rw [if_pos (by simp only [Bool.and_eq_true, decide_eq_true_eq]; omega)]

theorem utf8_list_roundtrip (s : List Nat) (hs : s.all validScalar = true) :
    utf8DecodeList (utf8EncodeList s) = some s := by
  induction s with
  | nil => rfl
  | cons c t ih =>
    rw [List.all_cons, Bool.and_eq_true] at hs
    have henc : utf8EncodeList (c :: t) = utf8EncodeChar c ++ utf8EncodeList t :=
      rfl
    rw [henc, utf8_char_roundtrip c hs.1, ih hs.2]
    rfl

theorem parseMany_encList (pv : List Nat → Option (PyVal × List Nat))
    (xs : List PyVal)
    (h : ∀ x ∈ xs, ∀ r, pv (encVal x ++ r) = some (x, r)) :
    ∀ rest, parseMany pv xs.length (encList xs ++ rest) = some (xs, rest) := by
  induction xs with
  | nil => intro rest; rfl
  | cons x t ih =>
    intro rest
    have hsplit : encList (x :: t) ++ rest = encVal x ++ (encList t ++ rest) := by
      rw [show encList (x :: t) = encVal x ++ encList t from rfl,
        List.append_assoc]
    show parseMany pv (t.length + 1) (encList (x :: t) ++ rest) = _
    unfold parseMany
    rw [hsplit, h x (List.Mem.head _) (encList t ++ rest)]
    show (parseMany pv t.length (encList t ++ rest)).map
      (fun vsr => (x :: vsr.1, vsr.2)) = some (x :: t, rest)
    rw [ih (fun y hy r => h y (List.Mem.tail _ hy) r) rest]
    rfl

theorem parseManyPairs_encPairs (pv : List Nat → Option (PyVal × List Nat))
    (xs : List (PyVal × PyVal))
    (h : ∀ p ∈ xs, (∀ r, pv (encVal p.1 ++ r) = some (p.1, r)) ∧
      (∀ r, pv (encVal p.2 ++ r) = some (p.2, r))) :
    ∀ rest, parseManyPairs pv xs.length (encPairs xs ++ rest) =
      some (xs, rest) := by
  induction xs with
  | nil => intro rest; rfl
  | cons p t ih =>
    intro rest
    have hsplit : encPairs (p :: t) ++ rest =
        encVal p.1 ++ (encVal p.2 ++ (encPairs t ++ rest)) := by
      rw [show encPairs (p :: t) = encVal p.1 ++ (encVal p.2 ++ encPairs t)
        from by
          cases p with
          | mk a b => exact List.append_assoc (encVal a) (encVal b) (encPairs t)]
      rw [List.append_assoc, List.append_assoc]
    show parseManyPairs pv (t.length + 1) (encPairs (p :: t) ++ rest) = _
    unfold parseManyPairs
    rw [hsplit, (h p (List.Mem.head _)).1 (encVal p.2 ++ (encPairs t ++ rest))]
    show ((pv (encVal p.2 ++ (encPairs t ++ rest))).bind fun vr =>
      (parseManyPairs pv t.length vr.2).map fun psr =>
        ((p.1, vr.1) :: psr.1, psr.2)) = some (p :: t, rest)
    rw [(h p (List.Mem.head _)).2 (encPairs t ++ rest)]
    show (parseManyPairs pv t.length (encPairs t ++ rest)).map
      (fun psr => ((p.1, p.2) :: psr.1, psr.2)) = some (p :: t, rest)
    rw [ih (fun q hq => h q (List.Mem.tail _ hq)) rest]
    show some ((p.1, p.2) :: t, rest) = some (p :: t, rest)
    cases p
    rfl

theorem wfList_mem {xs : List PyVal} (h : wfList xs = true) :
    ∀ x ∈ xs, wfVal x = true := by
  induction xs with
  | nil => intro x hx; exact absurd hx (List.not_mem_nil x)
  | cons y t ih =>
    intro x hx
    unfold wfList at h
    rw [Bool.and_eq_true] at h
    cases hx with
    | head => exact h.1
    | tail _ hx2 => exact ih h.2 x hx2

theorem wfPairs_mem {xs : List (PyVal × PyVal)} (h : wfPairs xs = true) :
    ∀ p ∈ xs, wfVal p.1 = true ∧ wfVal p.2 = true := by
  induction xs with
  | nil => intro p hp; exact absurd hp (List.not_mem_nil p)
  | cons q t ih =>
    intro p hp
    unfold wfPairs at h
    rw [Bool.and_eq_true, Bool.and_eq_true] at h
    cases hp with
    | head => exact ⟨h.1.1, h.1.2⟩
    | tail _ hp2 => exact ih h.2 p hp2

theorem one_le_encodeHead_length (m n : Nat) : 1 ≤ (encodeHead m n).length := by
  unfold encodeHead
  split_ifs <;> simp

theorem one_le_encVal_length : ∀ (v : PyVal), 1 ≤ (encVal v).length := by
  intro v
  cases v with
  | pint n =>
    show 1 ≤ (if 0 ≤ n then encodeHead 0 n.toNat
      else encodeHead 1 (-1 - n).toNat).length
    split_ifs <;> exact one_le_encodeHead_length _ _
  | pbytes b =>
    show 1 ≤ (encodeHead 2 b.length ++ b).length
    rw [List.length_append]
    have := one_le_encodeHead_length 2 b.length
    omega
  | pstr s =>
    show 1 ≤ (encodeHead 3 (utf8EncodeList s).length ++ utf8EncodeList s).length
    rw [List.length_append]
    have := one_le_encodeHead_length 3 (utf8EncodeList s).length
    omega
  | plist xs =>
    show 1 ≤ (encodeHead 4 xs.length ++ encList xs).length
    rw [List.length_append]
    have := one_le_encodeHead_length 4 xs.length
    omega
  | pdict xs =>
    show 1 ≤ (encodeHead 5 xs.length ++ encPairs xs).length
    rw [List.length_append]
    have := one_le_encodeHead_length 5 xs.length
    omega
  | pbool b => cases b <;> decide
  | pnone => decide
  | pother => decide
  | pfloat bits =>
    show 1 ≤ ((251 : Nat) :: bytesBE 8 bits).length
    simp

theorem pdepth_le_pdepthList {x : PyVal} {xs : List PyVal} (hx : x ∈ xs) :
    pdepth x ≤ pdepthList xs := by
  induction xs with
  | nil => exact absurd hx (List.not_mem_nil x)
  | cons y t ih =>
    unfold pdepthList
    cases hx with
    | head => exact Nat.le_max_left _ _
    | tail _ hx2 => exact le_trans (ih hx2) (Nat.le_max_right _ _)

theorem pdepth_le_pdepthPairs {p : PyVal × PyVal}
    {xs : List (PyVal × PyVal)} (hp : p ∈ xs) :
    pdepth p.1 ≤ pdepthPairs xs ∧ pdepth p.2 ≤ pdepthPairs xs := by
  induction xs with
  | nil => exact absurd hp (List.not_mem_nil p)
  | cons q t ih =>
    unfold pdepthPairs
    cases hp with
    | head =>
      constructor
      · exact le_trans (Nat.le_max_left _ _) (Nat.le_max_left _ _)
      · exact le_trans (Nat.le_max_right _ _) (Nat.le_max_left _ _)
    | tail _ hp2 =>
      constructor
      · exact le_trans (ih hp2).1 (Nat.le_max_right _ _)
      · exact le_trans (ih hp2).2 (Nat.le_max_right _ _)

theorem pdepthList_le_encList (xs : List PyVal)
    (h : ∀ x ∈ xs, pdepth x ≤ (encVal x).length) :
    pdepthList xs ≤ (encList xs).length := by
  induction xs with
  | nil => exact le_refl 0
  | cons x t ih =>
    unfold pdepthList
    rw [show encList (x :: t) = encVal x ++ encList t from rfl,
      List.length_append]
    have h1 := h x (List.Mem.head _)
    have h2 := ih (fun y hy => h y (List.Mem.tail _ hy))
    exact Nat.max_le.2 ⟨by omega, by omega⟩

theorem pdepthPairs_le_encPairs (xs : List (PyVal × PyVal))
    (h : ∀ p ∈ xs, pdepth p.1 ≤ (encVal p.1).length ∧
      pdepth p.2 ≤ (encVal p.2).length) :
    pdepthPairs xs ≤ (encPairs xs).length := by
  induction xs with
  | nil => exact le_refl 0
  | cons p t ih =>
    unfold pdepthPairs
    rw [show encPairs (p :: t) = encVal p.1 ++ (encVal p.2 ++ encPairs t)
      from by
        cases p with
        | mk a b => exact List.append_assoc (encVal a) (encVal b) (encPairs t)]
    rw [List.length_append, List.length_append]
    have h1 := (h p (List.Mem.head _)).1
    have h2 := (h p (List.Mem.head _)).2
    have h3 := ih (fun q hq => h q (List.Mem.tail _ hq))
    exact Nat.max_le.2 ⟨Nat.max_le.2 ⟨by omega, by omega⟩, by omega⟩

theorem sizeOf_fst_lt {p : PyVal × PyVal} : sizeOf p.1 < sizeOf p ∧
    sizeOf p.2 < sizeOf p := by
  cases p with
  | mk a b =>
    simp only [Prod.mk.sizeOf_spec]
    omega

theorem pdepth_le_enc : ∀ (k : Nat) (v : PyVal), sizeOf v ≤ k →
    pdepth v ≤ (encVal v).length := by
  intro k
  induction k with
  | zero =>
    intro v hv
    exfalso
    cases v <;> simp at hv <;> omega
  | succ k2 ih =>
    intro v hv
    cases v with
    | plist xs =>
      have hlist : pdepthList xs ≤ (encList xs).length :=
        pdepthList_le_encList xs (fun x hx => ih x (by
          have h1 : sizeOf x < sizeOf xs := List.sizeOf_lt_of_mem hx
          have h2 : sizeOf (PyVal.plist xs) = 1 + sizeOf xs := by simp
          omega))
      show 1 + pdepthList xs ≤ (encodeHead 4 xs.length ++ encList xs).length
      rw [List.length_append]
      have := one_le_encodeHead_length 4 xs.length
      omega
    | pdict xs =>
      have hpairs : pdepthPairs xs ≤ (encPairs xs).length :=
        pdepthPairs_le_encPairs xs (fun p hp => by
          have h1 : sizeOf p < sizeOf xs := List.sizeOf_lt_of_mem hp
          have h2 : sizeOf (PyVal.pdict xs) = 1 + sizeOf xs := by simp
          have h3 := @sizeOf_fst_lt p
          exact ⟨ih p.1 (by omega), ih p.2 (by omega)⟩)
      show 1 + pdepthPairs xs ≤ (encodeHead 5 xs.length ++ encPairs xs).length
      rw [List.length_append]
      have := one_le_encodeHead_length 5 xs.length
      omega
    | pint n => exact one_le_encVal_length _
    | pstr s => exact one_le_encVal_length _
    | pbytes b => exact one_le_encVal_length _
    | pfloat bits => exact one_le_encVal_length _
    | pbool b => exact one_le_encVal_length _
    | pnone => exact one_le_encVal_length _
    | pother => exact one_le_encVal_length _

theorem utf8EncodeChar_length_le (c : Nat) : (utf8EncodeChar c).length ≤ 4 := by
  unfold utf8EncodeChar
  split_ifs <;> simp

theorem utf8EncodeList_length_le (s : List Nat) :
    (utf8EncodeList s).length ≤ 4 * s.length := by
  induction s with
  | nil => simp [utf8EncodeList]
  | cons c t ih =>
    rw [show utf8EncodeList (c :: t) = utf8EncodeChar c ++ utf8EncodeList t
      from rfl]
    rw [List.length_append, List.length_cons]
    have := utf8EncodeChar_length_le c
    omega

theorem parseVal_encVal : ∀ (k : Nat) (v : PyVal), sizeOf v ≤ k →
    wfVal v = true → ∀ (fuel : Nat), pdepth v ≤ fuel → ∀ (rest : List Nat),
    parseVal fuel (encVal v ++ rest) = some (v, rest) := by
  intro k
  induction k with
  | zero =>
    intro v hv
    exfalso
    cases v <;> simp at hv <;> omega
  | succ k2 ih =>
    intro v hsize hwf fuel hfuel rest
    have hdep1 : 1 ≤ pdepth v := by cases v <;> simp [pdepth]
    obtain ⟨f, rfl⟩ : ∃ f, fuel = f + 1 := ⟨fuel - 1, by omega⟩
    cases v with
    | pint n =>
      unfold wfVal at hwf
      rw [Bool.and_eq_true, decide_eq_true_eq, decide_eq_true_eq] at hwf
      by_cases hn : 0 ≤ n
      · have henc : encVal (.pint n) = encodeHead 0 n.toNat := by
          show (if 0 ≤ n then encodeHead 0 n.toNat
            else encodeHead 1 (-1 - n).toNat) = _
          rw [if_pos hn]
        rcases encodeHead_decomp 0 n.toNat (by omega) (by omega) with
          ⟨b, l, hhead, hdiv, hread⟩
        rw [henc, hhead, List.cons_append]
        simp only [parseVal]
        rw [hdiv, if_neg (by decide), hread rest, Option.some_bind]
        rw [if_pos (by decide)]
        rw [show Int.ofNat n.toNat = n from Int.toNat_of_nonneg hn]
      · have henc : encVal (.pint n) = encodeHead 1 (-1 - n).toNat := by
          show (if 0 ≤ n then encodeHead 0 n.toNat
            else encodeHead 1 (-1 - n).toNat) = _
          rw [if_neg hn]
        rcases encodeHead_decomp 1 (-1 - n).toNat (by omega) (by omega) with
          ⟨b, l, hhead, hdiv, hread⟩
        rw [henc, hhead, List.cons_append]
        simp only [parseVal]
        rw [hdiv, if_neg (by decide), hread rest, Option.some_bind]
        rw [if_neg (by decide), if_pos (by decide)]
        rw [show Int.ofNat (-1 - n).toNat = -1 - n from
          Int.toNat_of_nonneg (by omega)]
        rw [show -1 - (-1 - n) = n from by omega]
    | pbytes bs =>
      unfold wfVal at hwf
      rw [Bool.and_eq_true, decide_eq_true_eq] at hwf
      rcases encodeHead_decomp 2 bs.length (by omega) (by omega) with
        ⟨b, l, hhead, hdiv, hread⟩
      have henc : encVal (.pbytes bs) ++ rest = b :: (l ++ (bs ++ rest)) := by
        show (encodeHead 2 bs.length ++ bs) ++ rest = _
        rw [hhead, List.cons_append, List.cons_append, List.append_assoc]
      rw [henc]
      simp only [parseVal]
      rw [hdiv, if_neg (by decide), hread (bs ++ rest), Option.some_bind]
      rw [if_neg (by decide), if_neg (by decide), if_pos (by decide)]
      rw [readN_exact bs rest, Option.map_some']
    | pstr s =>
      unfold wfVal at hwf
      rw [Bool.and_eq_true, decide_eq_true_eq] at hwf
      have hulen : (utf8EncodeList s).length < 18446744073709551616 := by
        have := utf8EncodeList_length_le s
        omega
      rcases encodeHead_decomp 3 (utf8EncodeList s).length (by omega) hulen with
        ⟨b, l, hhead, hdiv, hread⟩
      have henc : encVal (.pstr s) ++ rest =
          b :: (l ++ (utf8EncodeList s ++ rest)) := by
        show (encodeHead 3 (utf8EncodeList s).length ++ utf8EncodeList s) ++
          rest = _
        rw [hhead, List.cons_append, List.cons_append, List.append_assoc]
      rw [henc]
      simp only [parseVal]
      rw [hdiv, if_neg (by decide), hread (utf8EncodeList s ++ rest),
        Option.some_bind]
      rw [if_neg (by decide), if_neg (by decide), if_neg (by decide),
        if_pos (by decide)]
      rw [readN_exact (utf8EncodeList s) rest, Option.some_bind]
      rw [utf8_list_roundtrip s hwf.1, Option.map_some']
    | pfloat bits =>
      unfold wfVal at hwf
      rw [decide_eq_true_eq] at hwf
      have henc : encVal (.pfloat bits) ++ rest =
          (251 : Nat) :: (bytesBE 8 bits ++ rest) := by
        show ((251 : Nat) :: bytesBE 8 bits) ++ rest = _
        rw [List.cons_append]
      rw [henc]
      simp only [parseVal]
      rw [if_pos (by decide), if_neg (by decide), if_neg (by decide),
        if_neg (by decide), if_neg (by decide), if_pos (by decide)]
      rw [readBE_bytesBE 8 bits rest (by norm_num; omega), Option.map_some']
    | pbool bb =>
      cases bb with
      | false =>
        have henc : encVal (.pbool false) ++ rest = (244 : Nat) :: rest := rfl
        rw [henc]
        simp only [parseVal]
        rw [if_pos (by decide), if_pos (by decide)]
      | true =>
        have henc : encVal (.pbool true) ++ rest = (245 : Nat) :: rest := rfl
        rw [henc]
        simp only [parseVal]
        rw [if_pos (by decide), if_neg (by decide), if_pos (by decide)]
    | pnone =>
      have henc : encVal .pnone ++ rest = (246 : Nat) :: rest := rfl
      rw [henc]
      simp only [parseVal]
      rw [if_pos (by decide), if_neg (by decide), if_neg (by decide),
        if_pos (by decide)]
    | pother =>
      exfalso
      exact absurd hwf (by decide)
    | plist xs =>
      unfold wfVal at hwf
      rw [Bool.and_eq_true, decide_eq_true_eq] at hwf
      rcases encodeHead_decomp 4 xs.length (by omega) (by omega) with
        ⟨b, l, hhead, hdiv, hread⟩
      have henc : encVal (.plist xs) ++ rest =
          b :: (l ++ (encList xs ++ rest)) := by
        show (encodeHead 4 xs.length ++ encList xs) ++ rest = _
        rw [hhead, List.cons_append, List.cons_append, List.append_assoc]
      rw [henc]
      simp only [parseVal]
      rw [hdiv, if_neg (by decide), hread (encList xs ++ rest),
        Option.some_bind]
      rw [if_neg (by decide), if_neg (by decide), if_neg (by decide),
        if_neg (by decide), if_pos (by decide)]
      have helems : ∀ x ∈ xs, ∀ r,
          parseVal f (encVal x ++ r) = some (x, r) := by
        intro x hx r
        have h1 : sizeOf x < sizeOf xs := List.sizeOf_lt_of_mem hx
        have h2 : sizeOf (PyVal.plist xs) = 1 + sizeOf xs := by simp
        have h3 : pdepth x ≤ f := by
          have h4 := pdepth_le_pdepthList hx
          have h5 : pdepth (PyVal.plist xs) = 1 + pdepthList xs := rfl
          omega
        exact ih x (by omega) (wfList_mem hwf.2 x hx) f h3 r
      rw [parseMany_encList (fun l2 => parseVal f l2) xs helems rest,
        Option.map_some']
    | pdict xs =>
      unfold wfVal at hwf
      rw [Bool.and_eq_true, Bool.and_eq_true, decide_eq_true_eq] at hwf
      rcases encodeHead_decomp 5 xs.length (by omega) (by omega) with
        ⟨b, l, hhead, hdiv, hread⟩
      have henc : encVal (.pdict xs) ++ rest =
          b :: (l ++ (encPairs xs ++ rest)) := by
        show (encodeHead 5 xs.length ++ encPairs xs) ++ rest = _
        rw [hhead, List.cons_append, List.cons_append, List.append_assoc]
      rw [henc]
      simp only [parseVal]
      rw [hdiv, if_neg (by decide), hread (encPairs xs ++ rest),
        Option.some_bind]
      rw [if_neg (by decide), if_neg (by decide), if_neg (by decide),
        if_neg (by decide), if_neg (by decide)]
      have hpairs : ∀ p ∈ xs,
          (∀ r, parseVal f (encVal p.1 ++ r) = some (p.1, r)) ∧
          (∀ r, parseVal f (encVal p.2 ++ r) = some (p.2, r)) := by
        intro p hp
        have h1 : sizeOf p < sizeOf xs := List.sizeOf_lt_of_mem hp
        have h2 : sizeOf (PyVal.pdict xs) = 1 + sizeOf xs := by simp
        have h3 := @sizeOf_fst_lt p
        have h4 := pdepth_le_pdepthPairs hp
        have h5 : pdepth (PyVal.pdict xs) = 1 + pdepthPairs xs := rfl
        have h6 := wfPairs_mem hwf.2 p hp
        exact ⟨fun r => ih p.1 (by omega) h6.1 f (by omega) r,
          fun r => ih p.2 (by omega) h6.2 f (by omega) r⟩
      rw [parseManyPairs_encPairs (fun l2 => parseVal f l2) xs hpairs rest,
        Option.map_some']

theorem decode_encode (v : PyVal) (hwf : wfVal v = true)
    (hlen : (encode v).length ≤ MAX_CBOR_SIZE) :
    decode (encode v) = some v := by
  unfold decode
  rw [if_neg (Nat.not_lt.mpr hlen)]
  have h := parseVal_encVal (sizeOf v) v le_rfl hwf ((encVal v).length + 1)
    (le_trans (pdepth_le_enc (sizeOf v) v le_rfl) (Nat.le_succ _)) []
  rw [List.append_nil] at h
  show (parseVal ((encVal v).length + 1) (encVal v)).map (fun x => x.1) =
    some v
  rw [h, Option.map_some']

def envC8 : PyVal :=
  .pdict [(.pint K_V, .pint 1), (.pint K_T, .pint 0),
    (.pint K_ID, .pbytes (List.replicate 8 0)),
    (.pint K_TS, .pint 0),
    (.pint K_SRC, .pbytes (List.replicate 16 0))]

/-- Claim C8 (amended): for every envelope that passes validation, is a
well-formed CBOR value (ints within 64 bits, strings of valid scalar code
points, no foreign objects, distinct dict keys, lengths within CBOR's
64-bit bounds) and whose encoding does not exceed `MAX_CBOR_SIZE`,
decoding the encoding yields the envelope again. -/
theorem decode_encode_valid_envelope (env : PyVal)
    (hval : validate_envelope env = true) (hwf : wfVal env = true)
    (hlen : (encode env).length ≤ MAX_CBOR_SIZE) :
    decode (encode env) = some env :=
  decode_encode env hwf hlen

/-- Witness for C8's amended theorem at a concrete minimal valid
envelope. -/
theorem decode_encode_valid_envelope_witness :
    validate_envelope envC8 = true ∧ wfVal envC8 = true ∧
    (encode envC8).length ≤ MAX_CBOR_SIZE ∧
    decode (encode envC8) = some envC8 :=
  ⟨by decide, by decide, by decide,
    decode_encode_valid_envelope envC8 (by decide) (by decide) (by decide)⟩

def hugeBlob : List Nat := List.replicate 600000 0

def hugeBasePairs : List (PyVal × PyVal) :=
  [(.pint K_V, .pint 1), (.pint K_T, .pint 0),
    (.pint K_ID, .pbytes (List.replicate 8 0)),
    (.pint K_TS, .pint 0),
    (.pint K_SRC, .pbytes (List.replicate 16 0))]

def hugeEnv : PyVal :=
  .pdict ((.pint K_BODY, .pbytes hugeBlob) :: hugeBasePairs)

/-- Counterexample for claim C8 as stated: an envelope whose fields all
pass validation but whose body is a 600000-byte blob.  Its CBOR encoding
exceeds `MAX_CBOR_SIZE` (524288), so `decode (encode env)` raises (here:
returns `none`) instead of returning the envelope. -/
theorem decode_encode_fails_on_large_valid_envelope :
    validate_envelope hugeEnv = true ∧ decode (encode hugeEnv) = none := by
  refine ⟨by decide, ?_⟩
  have hblen : hugeBlob.length = 600000 := by
    rw [show hugeBlob = List.replicate 600000 0 from rfl]
    simp only [List.length_replicate]
  have hb : (encVal (PyVal.pbytes hugeBlob)).length =
      (encodeHead 2 hugeBlob.length).length + 600000 := by
    rw [show encVal (PyVal.pbytes hugeBlob) =
      encodeHead 2 hugeBlob.length ++ hugeBlob from by simp only [encVal]]
    rw [List.length_append, hblen]
  have hdec : encode hugeEnv =
      encodeHead 5 (hugeBasePairs.length + 1) ++
        (encVal (PyVal.pint K_BODY) ++
          (encVal (PyVal.pbytes hugeBlob) ++ encPairs hugeBasePairs)) := by
    show encVal hugeEnv = _
    rw [show hugeEnv = PyVal.pdict
      ((.pint K_BODY, .pbytes hugeBlob) :: hugeBasePairs) from rfl]
    simp only [encVal, encPairs, List.length_cons, List.append_assoc]
  have hlt : MAX_CBOR_SIZE < (encode hugeEnv).length := by
    rw [hdec, List.length_append, List.length_append, List.length_append, hb]
    rw [show MAX_CBOR_SIZE = 524288 from rfl]
    omega
  unfold decode
  rw [if_pos hlt]
